import Mathlib

/-!
# Source buffer of `forms2/go1` (package `sexpressionsgo1`)

A shallow embedding of `formsgo1.go`: the `strSourceFile` buffer, its cursor
protocol (`readRune`, `peekRune`, `unreadRune`), the conversions between
cursor offsets and (row, column) pairs, the line metrics and the rendering of
a position.

Modelling conventions.

* Go `int` and the named integer types `cursorOffset`, `lineNum`, `colNum`
  (each declared `type ... int`) are modelled by `Int`.  Slice lengths are
  below `2^63`.  On a buffer built by the constructor, with the cursor within
  its bounds and Go `int` arguments, the only step that can leave the 64-bit
  range is `l - 1` in `lineStart` at the least `int`; the wrapped value is
  the greatest `int`, which selects the invalid branch that `l < 0` selects
  here, so both give the same result.  `rowCol.String` takes any pair of
  ints and adds one to each, so its additions are wrapped (`wrapInt`).
* `rune` (an alias of `int32`) is modelled by `Int`; `'\n'` is `10`.
* The built-in conversion `[]rune(code)` is modelled by `toRunes`, the list of
  code points of the text.
* A method with a pointer receiver that may write the receiver returns the
  new receiver next to its Go results.
* A slice index that Go would reject at run time (index out of range) makes
  the embedded function return `none`.
* The counting loops of `lineLengths` and `lineStarts` carry a bound on the
  number of checks of the loop condition and return `none` when it is
  reached; `lineLengthsLoop_eq` and `lineStartsLoop_eq` show that the loop
  ends by its own condition under every bound above the number of lines.
-/

namespace FormsGo1

/-- The two values of Go's `error` interface that the package produces. -/
inductive error where
  | nil
  | EOF
  deriving DecidableEq

/-- Go `type rowCol struct { row lineNum; col colNum }`. -/
structure rowCol where
  row : Int
  col : Int
  deriving DecidableEq

/-- Go `func invalidRowCol() rowCol { return rowCol{-1, -1} }`. -/
def invalidRowCol : rowCol := ⟨-1, -1⟩

/-- Go `const invalidCursorOffset = -1`. -/
def invalidCursorOffset : Int := -1

/-- Go `type strSourceFile struct`. -/
structure strSourceFile where
  name : String
  cursor : Int
  runes : List Int
  newlineOffsets : List Int
  deriving DecidableEq

/-- The built-in conversion `[]rune(code)`: the code points of the text. -/
def toRunes (code : String) : List Int :=
  code.data.map (fun c => (c.toNat : Int))

/-- The loop of `newStrSourceFile`:
`for i, r := range runes { if r == '\n' { newlineOffsets = append(newlineOffsets, cursorOffset(i)) } }`,
started at index `i` with the slice built so far. -/
def scanNewlines : List Int → Int → List Int → List Int
  | [], _, newlineOffsets => newlineOffsets
  | r :: rest, i, newlineOffsets =>
    scanNewlines rest (i + 1) (if r = 10 then newlineOffsets ++ [i] else newlineOffsets)

/-- Go `func newStrSourceFile(name, code string) (*strSourceFile, error)`. -/
def newStrSourceFile (name code : String) : strSourceFile × error :=
  let runes := toRunes code
  let newlineOffsets := scanNewlines runes 0 []
  (⟨name, 0, runes, newlineOffsets⟩, error.nil)

/-- Go `mustSourceFile` of the test file: the buffer of a construction that
returned no error (the constructor never returns one). -/
def mustSourceFile (name s : String) : strSourceFile :=
  (newStrSourceFile name s).1

/-- Go `func (sf *strSourceFile) fileName() string`. -/
def fileName (sf : strSourceFile) : String := sf.name

/-- Slice indexing `xs[i]` with a Go `int` index; `none` is the run-time
index-out-of-range failure. -/
def index? (xs : List Int) (i : Int) : Option Int :=
  if i < 0 then none else xs.get? i.toNat

/-- Go `func (sf *strSourceFile) readRune() (rune, error)`. -/
def readRune (sf : strSourceFile) : Option ((Int × error) × strSourceFile) :=
  if sf.cursor = sf.runes.length then some ((0, error.EOF), sf)
  else
    match index? sf.runes sf.cursor with
    | none => none
    | some r => some ((r, error.nil), { sf with cursor := sf.cursor + 1 })

/-- Go `func (sf *strSourceFile) peekRune() (rune, error)`. -/
def peekRune (sf : strSourceFile) : Option ((Int × error) × strSourceFile) :=
  if sf.cursor = sf.runes.length then some ((0, error.EOF), sf)
  else
    match index? sf.runes sf.cursor with
    | none => none
    | some r => some ((r, error.nil), sf)

/-- Go `func (sf *strSourceFile) unreadRune() error`. -/
def unreadRune (sf : strSourceFile) : error × strSourceFile :=
  if sf.cursor = 0 then (error.EOF, sf)
  else (error.nil, { sf with cursor := sf.cursor - 1 })

/-- Go `func (sf *strSourceFile) cursorOffset() cursorOffset`. -/
def cursorOffset (sf : strSourceFile) : Int := sf.cursor

/-- Go `func (sf *strSourceFile) lineStart(l lineNum) cursorOffset`.  The
index `l - 1` is in range in the last branch, so the function never fails. -/
def lineStart (sf : strSourceFile) (l : Int) : Int :=
  if h0 : l = 0 then 0
  else if h : l - 1 ≥ sf.newlineOffsets.length ∨ l < 0 then invalidCursorOffset
  else sf.newlineOffsets.get ⟨(l - 1).toNat, by omega⟩ + 1

/-- Go `func (sf *strSourceFile) lineLength(l lineNum) int`. -/
def lineLength (sf : strSourceFile) (l : Int) : Int :=
  let start := lineStart sf l
  if start = invalidCursorOffset then -1
  else
    let nextStart := lineStart sf (l + 1)
    if nextStart = invalidCursorOffset then (sf.runes.length : Int) - start
    else nextStart - start - 1

/-- The loop of `offsetToRowCol` over `sf.newlineOffsets`, at index `i` with
the entries still to visit; `none` when the loop ends without returning. -/
def offsetToRowColLoop (sf : strSourceFile) (co : Int) :
    List Int → Int → Option rowCol
  | [], _ => none
  | endOfLineOffset :: rest, i =>
    if co > endOfLineOffset then offsetToRowColLoop sf co rest (i + 1)
    else some ⟨i, co - lineStart sf i⟩

/-- Go `func (sf *strSourceFile) offsetToRowCol(co cursorOffset) rowCol`. -/
def offsetToRowCol (sf : strSourceFile) (co : Int) : rowCol :=
  if co < 0 ∨ co > sf.runes.length then invalidRowCol
  else
    match offsetToRowColLoop sf co sf.newlineOffsets 0 with
    | some rc => rc
    | none =>
      let lastLine : Int := sf.newlineOffsets.length
      ⟨lastLine, co - lineStart sf lastLine⟩

/-- Go `func (sf *strSourceFile) rowColToOffset(rc rowCol) cursorOffset`. -/
def rowColToOffset (sf : strSourceFile) (rc : rowCol) : Int :=
  let start := lineStart sf rc.row
  if start = invalidCursorOffset then invalidCursorOffset
  else
    let ll := lineLength sf rc.row
    if rc.col > ll then invalidCursorOffset
    else start + rc.col

/-- The operations of the cursor protocol (the `op` constants of the test
file: `peak`, `read`, `unread`). -/
inductive op where
  | peak
  | read
  | unread
  deriving DecidableEq

/-- One call of the cursor protocol on a buffer: the buffer afterwards, or
`none` if the call fails at run time. -/
def applyOp (sf : strSourceFile) : op → Option strSourceFile
  | op.peak => (peekRune sf).map (fun p => p.2)
  | op.read => (readRune sf).map (fun p => p.2)
  | op.unread => some (unreadRune sf).2

/-- A finite sequence of calls of the cursor protocol, in order. -/
def applyOps (sf : strSourceFile) : List op → Option strSourceFile
  | [] => some sf
  | o :: rest =>
    match applyOp sf o with
    | none => none
    | some sf1 => applyOps sf1 rest

/-- The loop of `lineLengths`,
`for i := lineNum(0); i.offset() <= len(sf.newlineOffsets); i++ { ret = append(ret, sf.lineLength(i)) }`,
at loop variable `i` with the slice built so far.  The first argument bounds
the number of times the loop condition is checked; `none` when that bound is
reached before the condition fails. -/
def lineLengthsLoop (sf : strSourceFile) : Nat → Int → List Int → Option (List Int)
  | 0, _, _ => none
  | fuel + 1, i, ret =>
    if i ≤ sf.newlineOffsets.length then
      lineLengthsLoop sf fuel (i + 1) (ret ++ [lineLength sf i])
    else some ret

/-- Go `func (sf *strSourceFile) lineLengths() []int`.  The loop condition is
checked `len(sf.newlineOffsets) + 2` times. -/
def lineLengths (sf : strSourceFile) : Option (List Int) :=
  lineLengthsLoop sf (sf.newlineOffsets.length + 2) 0 []

/-- The loop of `lineStarts`,
`for i := lineNum(0); i.offset() <= len(sf.newlineOffsets); i++ { ret = append(ret, sf.lineStart(i)) }`,
with the same bound on the checks of the loop condition as `lineLengthsLoop`. -/
def lineStartsLoop (sf : strSourceFile) : Nat → Int → List Int → Option (List Int)
  | 0, _, _ => none
  | fuel + 1, i, ret =>
    if i ≤ sf.newlineOffsets.length then
      lineStartsLoop sf fuel (i + 1) (ret ++ [lineStart sf i])
    else some ret

/-- Go `func (sf *strSourceFile) lineStarts() []cursorOffset`. -/
def lineStarts (sf : strSourceFile) : Option (List Int) :=
  lineStartsLoop sf (sf.newlineOffsets.length + 2) 0 []

/-- A 64-bit Go `int` after an arithmetic step: the two's-complement value of
the mathematical result. -/
def wrapInt (x : Int) : Int :=
  (x + 9223372036854775808) % 18446744073709551616 - 9223372036854775808

/-- The verb `%d` of `fmt.Sprintf` on an `int`: the decimal rendering, with a
leading minus sign for a negative value. -/
def formatD (n : Int) : String := toString n

/-- Go `func (rc rowCol) String() string`:
`fmt.Sprintf("%d:%d", rc.row.offset()+1, rc.col.offset()+1)`.  A position is
any pair of Go ints, so the two additions are taken in 64-bit arithmetic. -/
def rowCol.String (rc : rowCol) : String :=
  formatD (wrapInt (rc.row + 1)) ++ ":" ++ formatD (wrapInt (rc.col + 1))

/-- Go `type opResult struct { Cursor cursorOffset; Rune rune; Err error }` of
the test file. -/
structure opResult where
  Cursor : Int
  Rune : Int
  Err : error
  deriving DecidableEq

/-- The loop of `performOps` of the test file over the operations still to
perform, with the results so far; `none` if a call fails at run time. -/
def performOpsLoop : List op → strSourceFile → List opResult → Option (List opResult)
  | [], _, ret => some ret
  | op.read :: rest, sf, ret =>
    match readRune sf with
    | none => none
    | some ((r, err), sf1) => performOpsLoop rest sf1 (ret ++ [⟨cursorOffset sf1, r, err⟩])
  | op.unread :: rest, sf, ret =>
    match unreadRune sf with
    | (err, sf1) => performOpsLoop rest sf1 (ret ++ [⟨cursorOffset sf1, 0, err⟩])
  | op.peak :: rest, sf, ret =>
    match peekRune sf with
    | none => none
    | some ((r, err), sf1) => performOpsLoop rest sf1 (ret ++ [⟨cursorOffset sf1, r, err⟩])

/-- Go `func performOps(sf sourceFile, ops ...op) []opResult` of the test
file. -/
def performOps (sf : strSourceFile) (ops : List op) : Option (List opResult) :=
  performOpsLoop ops sf []


/-! ## Construction: the newline index -/

theorem scanNewlines_acc (rs : List Int) (i : Int) (acc : List Int) :
    scanNewlines rs i acc = acc ++ scanNewlines rs i [] := by
  induction rs generalizing i acc with
  | nil => simp [scanNewlines]
  | cons r rest ih =>
    simp only [scanNewlines]
    rw [ih (i + 1) (if r = 10 then acc ++ [i] else acc),
      ih (i + 1) (if r = 10 then [] ++ [i] else [])]
    split <;> simp

theorem scanNewlines_cons (r : Int) (rest : List Int) (i : Int) :
    scanNewlines (r :: rest) i [] =
      (if r = 10 then [i] else []) ++ scanNewlines rest (i + 1) [] := by
  simp only [scanNewlines]
  rw [scanNewlines_acc]
  split <;> simp

theorem mem_scanNewlines (rs : List Int) (i x : Int) :
    x ∈ scanNewlines rs i [] ↔ i ≤ x ∧ x < i + rs.length ∧ index? rs (x - i) = some 10 := by
  induction rs generalizing i with
  | nil =>
    simp [scanNewlines]
    omega
  | cons r rest ih =>
    rw [scanNewlines_cons, List.mem_append, ih]
    constructor
    · rintro (h | ⟨h1, h2, h3⟩)
      · split at h
        · simp at h
          subst h
          simp [index?]
          omega
        · simp at h
      · refine ⟨by omega, by simp; omega, ?_⟩
        have hpos : ¬ (x - i < 0) := by omega
        have hpos1 : ¬ (x - (i + 1) < 0) := by omega
        simp only [index?, hpos, hpos1, if_false] at h3 ⊢
        have : (x - i).toNat = (x - (i + 1)).toNat + 1 := by omega
        rw [this]
        simpa using h3
    · rintro ⟨h1, h2, h3⟩
      by_cases hx : x = i
      · left
        subst hx
        simp [index?] at h3
        simp [h3]
      · right
        refine ⟨by omega, by simp at h2; omega, ?_⟩
        have hpos : ¬ (x - i < 0) := by omega
        have hpos1 : ¬ (x - (i + 1) < 0) := by omega
        simp only [index?, hpos, hpos1, if_false] at h3 ⊢
        have : (x - i).toNat = (x - (i + 1)).toNat + 1 := by omega
        rw [this] at h3
        simpa using h3

theorem pairwise_scanNewlines (rs : List Int) (i : Int) :
    (scanNewlines rs i []).Pairwise (fun a b => a < b) := by
  induction rs generalizing i with
  | nil => simp [scanNewlines]
  | cons r rest ih =>
    rw [scanNewlines_cons]
    split
    · simp only [List.singleton_append, List.pairwise_cons]
      refine ⟨?_, ih (i + 1)⟩
      intro b hb
      have := (mem_scanNewlines rest (i + 1) b).1 hb
      omega
    · simpa using ih (i + 1)

/-! ## Line starts -/

theorem lineStart_zero (sf : strSourceFile) : lineStart sf 0 = 0 := by
  simp [lineStart]

theorem lineStart_succ (sf : strSourceFile) (k : Nat) (hk : k < sf.newlineOffsets.length) :
    lineStart sf ((k : Int) + 1) = sf.newlineOffsets.get ⟨k, hk⟩ + 1 := by
  have h0 : ¬ ((k : Int) + 1 = 0) := by omega
  have h1 : ¬ ((k : Int) + 1 - 1 ≥ sf.newlineOffsets.length ∨ (k : Int) + 1 < 0) := by omega
  simp only [lineStart, dif_neg h0, dif_neg h1]
  congr 2
  simp

theorem lineStart_invalid (sf : strSourceFile) (l : Int)
    (h : l < 0 ∨ (sf.newlineOffsets.length : Int) < l) :
    lineStart sf l = invalidCursorOffset := by
  have h0 : ¬ (l = 0) := by omega
  have h1 : l - 1 ≥ sf.newlineOffsets.length ∨ l < 0 := by omega
  simp only [lineStart, dif_neg h0, dif_pos h1]

/-! ## The loop of `offsetToRowCol` -/

theorem offsetToRowColLoop_none (sf : strSourceFile) (co : Int) (xs : List Int) (i : Int) :
    offsetToRowColLoop sf co xs i = none ↔ ∀ x ∈ xs, x < co := by
  induction xs generalizing i with
  | nil => simp [offsetToRowColLoop]
  | cons e rest ih =>
    simp only [offsetToRowColLoop]
    split
    · rw [ih]
      simp
      omega
    · simp
      omega

theorem offsetToRowColLoop_some (sf : strSourceFile) (co : Int) (xs : List Int) (i : Int)
    (rc : rowCol) (h : offsetToRowColLoop sf co xs i = some rc) :
    ∃ k : Fin xs.length, co ≤ xs.get k ∧ (∀ j : Fin xs.length, j < k → xs.get j < co) ∧
      rc = ⟨i + (k : Nat), co - lineStart sf (i + (k : Nat))⟩ := by
  induction xs generalizing i with
  | nil => simp [offsetToRowColLoop] at h
  | cons e rest ih =>
    simp only [offsetToRowColLoop] at h
    split at h
    · obtain ⟨k, hk1, hk2, hk3⟩ := ih (i + 1) h
      refine ⟨k.succ, by simpa using hk1, ?_, ?_⟩
      · intro j hj
        refine Fin.cases ?_ (fun j1 hj1 => ?_) j hj
        · intro _
          simpa using (by omega : e < co)
        · have hlt := hk2 j1 (by simpa using hj1)
          simpa using hlt
      · rw [hk3]
        simp only [Fin.val_succ, Nat.cast_add, Nat.cast_one]
        have : i + 1 + (k : Int) = i + ((k : Int) + 1) := by omega
        rw [this]
    · refine ⟨⟨0, by simp⟩, by simp; omega, ?_, ?_⟩
      · intro j hj
        exact absurd hj (by simp [Fin.lt_def])
      · simp at h ⊢
        exact h.symm

/-- The result of `offsetToRowCol` on an offset within the bounds: the first
newline offset at or after the offset selects the line, and the last line is
taken when there is none. -/
theorem offsetToRowCol_cases (sf : strSourceFile) (co : Int)
    (h0 : 0 ≤ co) (h1 : co ≤ sf.runes.length) :
    (∃ k : Fin sf.newlineOffsets.length, co ≤ sf.newlineOffsets.get k ∧
        (∀ j : Fin sf.newlineOffsets.length, j < k → sf.newlineOffsets.get j < co) ∧
        offsetToRowCol sf co = ⟨(k : Nat), co - lineStart sf (k : Nat)⟩) ∨
      ((∀ x ∈ sf.newlineOffsets, x < co) ∧
        offsetToRowCol sf co =
          ⟨sf.newlineOffsets.length, co - lineStart sf sf.newlineOffsets.length⟩) := by
  have hb : ¬ (co < 0 ∨ co > sf.runes.length) := by omega
  simp only [offsetToRowCol, if_neg hb]
  cases hl : offsetToRowColLoop sf co sf.newlineOffsets 0 with
  | none =>
    right
    exact ⟨(offsetToRowColLoop_none sf co _ 0).1 hl, rfl⟩
  | some rc =>
    left
    obtain ⟨k, hk1, hk2, hk3⟩ := offsetToRowColLoop_some sf co _ 0 rc hl
    refine ⟨k, hk1, hk2, ?_⟩
    simpa using hk3

/-! ## Buffers built by the constructor -/

theorem mustSourceFile_runes (name code : String) :
    (mustSourceFile name code).runes = toRunes code := rfl

theorem mustSourceFile_newlineOffsets (name code : String) :
    (mustSourceFile name code).newlineOffsets = scanNewlines (toRunes code) 0 [] := rfl

theorem mustSourceFile_mem (name code : String) (x : Int)
    (hx : x ∈ (mustSourceFile name code).newlineOffsets) :
    0 ≤ x ∧ x < (mustSourceFile name code).runes.length := by
  rw [mustSourceFile_newlineOffsets, mem_scanNewlines] at hx
  rw [mustSourceFile_runes]
  omega

/-- Line starts of existing lines: line `0` starts at `0`, line `j + 1` right
after newline `j`. -/
theorem lineStart_nat_cases (sf : strSourceFile) (k : Nat) (hk : k ≤ sf.newlineOffsets.length) :
    (k = 0 ∧ lineStart sf (k : Nat) = 0) ∨
      ∃ j : Fin sf.newlineOffsets.length, (j : Nat) + 1 = k ∧
        lineStart sf (k : Nat) = sf.newlineOffsets.get j + 1 := by
  cases k with
  | zero =>
    left
    exact ⟨rfl, by simp [lineStart_zero]⟩
  | succ n =>
    right
    refine ⟨⟨n, by omega⟩, rfl, ?_⟩
    have := lineStart_succ sf n (by omega)
    simpa using this

theorem lineStart_nonneg (sf : strSourceFile) (hnl : ∀ x ∈ sf.newlineOffsets, 0 ≤ x)
    (k : Nat) (hk : k ≤ sf.newlineOffsets.length) : 0 ≤ lineStart sf (k : Nat) := by
  rcases lineStart_nat_cases sf k hk with ⟨_, h⟩ | ⟨j, _, h⟩
  · omega
  · have := hnl _ (List.mem_iff_get.2 ⟨j, rfl⟩)
    omega

/-- The line start is at or before an offset that lies after all earlier
newlines. -/
theorem lineStart_le (sf : strSourceFile) (co : Int) (h0 : 0 ≤ co) (k : Nat)
    (hk : k ≤ sf.newlineOffsets.length)
    (hlt : ∀ j : Fin sf.newlineOffsets.length, (j : Nat) < k → sf.newlineOffsets.get j < co) :
    lineStart sf (k : Nat) ≤ co := by
  rcases lineStart_nat_cases sf k hk with ⟨_, h⟩ | ⟨j, hj, h⟩
  · omega
  · have := hlt j (by omega)
    omega

/-- Length of a line that a newline terminates, when no line start collides
with the sentinel. -/
theorem lineLength_inner (sf : strSourceFile) (hnl : ∀ x ∈ sf.newlineOffsets, 0 ≤ x)
    (k : Fin sf.newlineOffsets.length) :
    lineLength sf ((k : Nat) : Int) = sf.newlineOffsets.get k - lineStart sf ((k : Nat) : Int) := by
  have h1 := lineStart_nonneg sf hnl k (by omega)
  have h2 := lineStart_succ sf k k.2
  simp only [Fin.eta] at h2
  have h3 := hnl _ (List.mem_iff_get.2 ⟨k, rfl⟩)
  have ha : ¬ (lineStart sf ((k : Nat) : Int) = invalidCursorOffset) := by
    simp only [invalidCursorOffset]; omega
  have hb : ¬ (lineStart sf (((k : Nat) : Int) + 1) = invalidCursorOffset) := by
    simp only [invalidCursorOffset]; omega
  simp only [lineLength, if_neg ha, if_neg hb]
  omega

/-- Length of the last line. -/
theorem lineLength_last (sf : strSourceFile) (hnl : ∀ x ∈ sf.newlineOffsets, 0 ≤ x) :
    lineLength sf (sf.newlineOffsets.length : Int) =
      sf.runes.length - lineStart sf (sf.newlineOffsets.length : Int) := by
  have h1 := lineStart_nonneg sf hnl sf.newlineOffsets.length (le_refl _)
  have h2 := lineStart_invalid sf ((sf.newlineOffsets.length : Int) + 1) (by omega)
  have ha : ¬ (lineStart sf (sf.newlineOffsets.length : Int) = invalidCursorOffset) := by
    simp only [invalidCursorOffset]; omega
  simp only [lineLength, if_neg ha, h2, if_true]

theorem index?_isSome (xs : List Int) (i : Int) (h0 : 0 ≤ i) (h1 : i < xs.length) :
    ∃ r, index? xs i = some r ∧ xs.get? i.toNat = some r := by
  have hi : i.toNat < xs.length := by omega
  refine ⟨xs.get ⟨i.toNat, hi⟩, ?_, ?_⟩
  · simp only [index?, if_neg (by omega : ¬ i < 0)]
    exact List.get?_eq_get hi
  · exact List.get?_eq_get hi

/-! ## Offset to position and back -/

/-- The round trip on any buffer whose newline offsets are non-negative:
converting a valid offset to a position and back returns the offset. -/
theorem rowColToOffset_offsetToRowCol (sf : strSourceFile)
    (hnl : ∀ x ∈ sf.newlineOffsets, 0 ≤ x) (o : Int) (h0 : 0 ≤ o)
    (h1 : o ≤ sf.runes.length) :
    rowColToOffset sf (offsetToRowCol sf o) = o := by
  rcases offsetToRowCol_cases sf o h0 h1 with ⟨k, hk1, hk2, hk3⟩ | ⟨hall, hrc⟩
  · have hs := lineStart_nonneg sf hnl k (by omega)
    have hl := lineLength_inner sf hnl k
    have ha : ¬ (lineStart sf ((k : Nat) : Int) = invalidCursorOffset) := by
      simp only [invalidCursorOffset]; omega
    have hb : ¬ (o - lineStart sf ((k : Nat) : Int) > lineLength sf ((k : Nat) : Int)) := by
      omega
    rw [hk3]
    simp only [rowColToOffset, if_neg ha, if_neg hb]
    omega
  · have hs := lineStart_nonneg sf hnl sf.newlineOffsets.length (le_refl _)
    have hl := lineLength_last sf hnl
    have ha : ¬ (lineStart sf (sf.newlineOffsets.length : Int) = invalidCursorOffset) := by
      simp only [invalidCursorOffset]; omega
    have hb : ¬ (o - lineStart sf (sf.newlineOffsets.length : Int) >
        lineLength sf (sf.newlineOffsets.length : Int)) := by
      omega
    rw [hrc]
    simp only [rowColToOffset, if_neg ha, if_neg hb]
    omega

/-- C1 (round trip): for every source text and every offset `o` with
`0 <= o <= len(characters)` of the buffer created from it,
`rowColToOffset(offsetToRowCol(o)) == o`. -/
theorem roundtrip (name code : String) (o : Int) (h0 : 0 ≤ o)
    (h1 : o ≤ (mustSourceFile name code).runes.length) :
    rowColToOffset (mustSourceFile name code) (offsetToRowCol (mustSourceFile name code) o) = o :=
  rowColToOffset_offsetToRowCol (mustSourceFile name code)
    (fun x hx => (mustSourceFile_mem name code x hx).1) o h0 h1

/-- Witness of C1 on the second test text of the repository (multi-byte
characters, blank lines, trailing newline), at the offset of its last blank
line. -/
theorem roundtrip_witness :
    (0 : Int) ≤ 35 ∧
      (35 : Int) ≤ (mustSourceFile "t" "ひ°bc\n1ひ3\nsdfkl,sdkflksdflksdkfllk\n\n\n3533\n").runes.length ∧
      rowColToOffset (mustSourceFile "t" "ひ°bc\n1ひ3\nsdfkl,sdkflksdflksdkfllk\n\n\n3533\n")
        (offsetToRowCol (mustSourceFile "t" "ひ°bc\n1ひ3\nsdfkl,sdkflksdflksdkfllk\n\n\n3533\n") 35) = 35 :=
  ⟨by decide, by decide, roundtrip "t" "ひ°bc\n1ひ3\nsdfkl,sdkflksdflksdkfllk\n\n\n3533\n" 35
    (by decide) (by decide)⟩

/-! ## Cursor protocol -/

theorem readRune_atEnd (sf : strSourceFile) (h : sf.cursor = sf.runes.length) :
    readRune sf = some ((0, error.EOF), sf) := by
  simp [readRune, h]

theorem readRune_inside (sf : strSourceFile) (h0 : 0 ≤ sf.cursor)
    (h1 : sf.cursor < sf.runes.length) :
    ∃ r, sf.runes.get? sf.cursor.toNat = some r ∧ index? sf.runes sf.cursor = some r ∧
      readRune sf =
        some ((r, error.nil), ⟨sf.name, sf.cursor + 1, sf.runes, sf.newlineOffsets⟩) := by
  obtain ⟨r, hr, hg⟩ := index?_isSome sf.runes sf.cursor h0 h1
  have h : ¬ (sf.cursor = sf.runes.length) := by omega
  exact ⟨r, hg, hr, by simp [readRune, h, hr]⟩

theorem peekRune_atEnd (sf : strSourceFile) (h : sf.cursor = sf.runes.length) :
    peekRune sf = some ((0, error.EOF), sf) := by
  simp [peekRune, h]

theorem peekRune_inside (sf : strSourceFile) (h0 : 0 ≤ sf.cursor)
    (h1 : sf.cursor < sf.runes.length) :
    ∃ r, index? sf.runes sf.cursor = some r ∧ peekRune sf = some ((r, error.nil), sf) := by
  obtain ⟨r, hr, _⟩ := index?_isSome sf.runes sf.cursor h0 h1
  have h : ¬ (sf.cursor = sf.runes.length) := by omega
  exact ⟨r, hr, by simp [peekRune, h, hr]⟩

/-- Within the bounds a peek returns, and returns the buffer as it was. -/
theorem peekRune_returns (sf : strSourceFile) (h0 : 0 ≤ sf.cursor)
    (h1 : sf.cursor ≤ sf.runes.length) :
    ∃ res : Int × error, peekRune sf = some (res, sf) ∧
      (readRune sf).map (fun p => p.1) = some res := by
  by_cases h : sf.cursor = sf.runes.length
  · exact ⟨(0, error.EOF), peekRune_atEnd sf h, by simp [readRune_atEnd sf h]⟩
  · obtain ⟨r, hr, hp⟩ := peekRune_inside sf h0 (by omega)
    obtain ⟨r1, _, hr1, hread⟩ := readRune_inside sf h0 (by omega)
    have : r1 = r := by
      rw [hr] at hr1
      exact (Option.some.inj hr1).symm
    subst this
    exact ⟨(r1, error.nil), hp, by simp [hread]⟩

/-- C2 (`readRune`): in a buffer state with `0 <= cursor <= len(characters)`,
if `cursor == len(characters)` the call returns rune `0` with `io.EOF` and
leaves the buffer as it was; otherwise it returns `characters[cursor]` with a
nil error, and afterwards the cursor is `cursor + 1` while name, characters
and newline offsets are unchanged. -/
theorem readRune_spec (sf : strSourceFile) (h0 : 0 ≤ sf.cursor)
    (h1 : sf.cursor ≤ sf.runes.length) :
    (sf.cursor = sf.runes.length → readRune sf = some ((0, error.EOF), sf)) ∧
      (sf.cursor ≠ sf.runes.length →
        ∃ r, sf.runes.get? sf.cursor.toNat = some r ∧
          readRune sf =
            some ((r, error.nil), ⟨sf.name, sf.cursor + 1, sf.runes, sf.newlineOffsets⟩)) := by
  constructor
  · intro h
    exact readRune_atEnd sf h
  · intro h
    obtain ⟨r, hg, _, hread⟩ := readRune_inside sf h0 (by omega)
    exact ⟨r, hg, hread⟩

/-- Witness of C2 on the buffer of `"ab"` after one read: the second read
returns `'b'` and moves the cursor from 1 to 2. -/
theorem readRune_spec_witness :
    ((0 : Int) ≤ 1 ∧ (1 : Int) ≤ ([97, 98] : List Int).length) ∧
      readRune ⟨"f", 1, [97, 98], []⟩ = some ((98, error.nil), ⟨"f", 2, [97, 98], []⟩) := by
  refine ⟨⟨by decide, by decide⟩, ?_⟩
  obtain ⟨r, hr, hread⟩ :=
    (readRune_spec ⟨"f", 1, [97, 98], []⟩ (by decide) (by decide)).2 (by decide)
  simp at hr
  subst hr
  exact hread

/-- C3 (`peekRune`): in a buffer state with `0 <= cursor <= len(characters)`,
`peekRune` returns the (character, error) pair that `readRune` returns in that
state and leaves the whole buffer unchanged, so any number of consecutive
peeks ends in the same state and the next peek returns the same pair. -/
theorem peekRune_spec (sf : strSourceFile) (h0 : 0 ≤ sf.cursor)
    (h1 : sf.cursor ≤ sf.runes.length) :
    ∃ res : Int × error, peekRune sf = some (res, sf) ∧
      (readRune sf).map (fun p => p.1) = some res ∧
      (peekRune sf).map (fun p => cursorOffset p.2) = some (cursorOffset sf) ∧
      ∀ n : Nat, applyOps sf (List.replicate n op.peak) = some sf := by
  obtain ⟨res, hp, hr⟩ := peekRune_returns sf h0 h1
  refine ⟨res, hp, hr, by simp [hp], ?_⟩
  intro n
  induction n with
  | zero => rfl
  | succ m ih =>
    simp only [List.replicate_succ, applyOps, applyOp, hp, Option.map_some']
    exact ih

/-- Witness of C3 on the buffer of `"a"`: peeking returns `'a'` and leaves the
buffer at offset 0, also after three peeks. -/
theorem peekRune_spec_witness :
    ((0 : Int) ≤ 0 ∧ (0 : Int) ≤ ([97] : List Int).length) ∧
      ∃ res : Int × error, peekRune ⟨"", 0, [97], []⟩ = some (res, ⟨"", 0, [97], []⟩) ∧
        (readRune ⟨"", 0, [97], []⟩).map (fun p => p.1) = some res ∧
        (peekRune ⟨"", 0, [97], []⟩).map (fun p => cursorOffset p.2) =
          some (cursorOffset ⟨"", 0, [97], []⟩) ∧
        ∀ n : Nat, applyOps ⟨"", 0, [97], []⟩ (List.replicate n op.peak) =
          some ⟨"", 0, [97], []⟩ :=
  ⟨⟨by decide, by decide⟩, peekRune_spec ⟨"", 0, [97], []⟩ (by decide) (by decide)⟩

/-- C4 (`unreadRune`): for every buffer state the call returns `io.EOF`
exactly when `cursor == 0`, and then the buffer is unchanged; otherwise it
returns a nil error and only the cursor changes, to `cursor - 1`.  On a
freshly created buffer it returns `io.EOF` for every text. -/
theorem unreadRune_spec (sf : strSourceFile) (name code : String) :
    ((unreadRune sf).1 = error.EOF ↔ sf.cursor = 0) ∧
      (sf.cursor = 0 → unreadRune sf = (error.EOF, sf)) ∧
      (sf.cursor ≠ 0 →
        unreadRune sf =
          (error.nil, ⟨sf.name, sf.cursor - 1, sf.runes, sf.newlineOffsets⟩)) ∧
      unreadRune (mustSourceFile name code) = (error.EOF, mustSourceFile name code) := by
  refine ⟨?_, ?_, ?_, ?_⟩
  · by_cases h : sf.cursor = 0 <;> simp [unreadRune, h]
  · intro h
    simp [unreadRune, h]
  · intro h
    simp [unreadRune, h]
  · simp [unreadRune, mustSourceFile, newStrSourceFile]

/-- Instance of C4 on the buffer of `"a"` with the cursor at 1, a position
reached here without any read: the unread succeeds and the cursor is 0. -/
theorem unreadRune_spec_witness :
    unreadRune ⟨"", 1, [97], []⟩ = (error.nil, ⟨"", 0, [97], []⟩) :=
  (unreadRune_spec ⟨"", 1, [97], []⟩ "" "").2.2.1 (by decide)

/-- One call of the cursor protocol keeps the cursor within the bounds,
returns, and changes nothing but the cursor. -/
theorem applyOp_bounds (sf : strSourceFile) (o : op) (h0 : 0 ≤ sf.cursor)
    (h1 : sf.cursor ≤ sf.runes.length) :
    ∃ sf1, applyOp sf o = some sf1 ∧ 0 ≤ sf1.cursor ∧ sf1.cursor ≤ sf1.runes.length ∧
      sf1.name = sf.name ∧ sf1.runes = sf.runes ∧ sf1.newlineOffsets = sf.newlineOffsets := by
  cases o with
  | peak =>
    obtain ⟨res, hp, _⟩ := peekRune_returns sf h0 h1
    exact ⟨sf, by simp [applyOp, hp], h0, h1, rfl, rfl, rfl⟩
  | read =>
    by_cases h : sf.cursor = sf.runes.length
    · exact ⟨sf, by simp [applyOp, readRune, h], h0, h1, rfl, rfl, rfl⟩
    · obtain ⟨r, hr, _⟩ := index?_isSome sf.runes sf.cursor h0 (by omega)
      refine ⟨{ sf with cursor := sf.cursor + 1 }, by simp [applyOp, readRune, h, hr],
        ?_, ?_, rfl, rfl, rfl⟩
      · show 0 ≤ sf.cursor + 1
        omega
      · show sf.cursor + 1 ≤ sf.runes.length
        omega
  | unread =>
    by_cases h : sf.cursor = 0
    · exact ⟨sf, by simp [applyOp, unreadRune, h], h0, h1, rfl, rfl, rfl⟩
    · refine ⟨{ sf with cursor := sf.cursor - 1 }, by simp [applyOp, unreadRune, h],
        ?_, ?_, rfl, rfl, rfl⟩
      · show 0 ≤ sf.cursor - 1
        omega
      · show sf.cursor - 1 ≤ sf.runes.length
        omega

/-- A sequence of calls of the cursor protocol keeps the cursor within the
bounds and returns at every call. -/
theorem applyOps_bounds (ops : List op) (sf : strSourceFile) (h0 : 0 ≤ sf.cursor)
    (h1 : sf.cursor ≤ sf.runes.length) :
    ∃ sf1, applyOps sf ops = some sf1 ∧ 0 ≤ sf1.cursor ∧ sf1.cursor ≤ sf1.runes.length ∧
      sf1.name = sf.name ∧ sf1.runes = sf.runes ∧ sf1.newlineOffsets = sf.newlineOffsets := by
  induction ops generalizing sf with
  | nil => exact ⟨sf, rfl, h0, h1, rfl, rfl, rfl⟩
  | cons o rest ih =>
    obtain ⟨sf1, hs, g0, g1, gn, gr, gl⟩ := applyOp_bounds sf o h0 h1
    obtain ⟨sf2, hs2, k0, k1, kn, kr, kl⟩ := ih sf1 g0 g1
    refine ⟨sf2, ?_, k0, k1, kn.trans gn, kr.trans gr, kl.trans gl⟩
    simp only [applyOps, hs]
    exact hs2

/-- C5 (cursor invariant): every finite sequence of `readRune`, `peekRune`
and `unreadRune` calls on the buffer created from a text runs to a state with
`0 <= cursor <= len(characters)`; in that state either the cursor is at the
end of the characters or `characters[cursor]` is an index in range, so the
next read or peek returns. -/
theorem cursor_invariant (name code : String) (ops : List op) :
    ∃ sf1, applyOps (mustSourceFile name code) ops = some sf1 ∧
      0 ≤ sf1.cursor ∧ sf1.cursor ≤ sf1.runes.length ∧
      sf1.runes = toRunes code ∧
      (sf1.cursor = sf1.runes.length ∨ ∃ r, index? sf1.runes sf1.cursor = some r) ∧
      (∃ p, readRune sf1 = some p) ∧ (∃ p, peekRune sf1 = some p) := by
  obtain ⟨sf1, hs, g0, g1, _, gr, _⟩ :=
    applyOps_bounds ops (mustSourceFile name code) (le_refl _)
      (by simp [mustSourceFile, newStrSourceFile])
  refine ⟨sf1, hs, g0, g1, gr, ?_, ?_, ?_⟩
  · by_cases h : sf1.cursor = sf1.runes.length
    · exact Or.inl h
    · obtain ⟨r, hr, _⟩ := index?_isSome sf1.runes sf1.cursor g0 (by omega)
      exact Or.inr ⟨r, hr⟩
  · by_cases h : sf1.cursor = sf1.runes.length
    · exact ⟨_, readRune_atEnd sf1 h⟩
    · obtain ⟨r, _, _, hr⟩ := readRune_inside sf1 g0 (by omega)
      exact ⟨_, hr⟩
  · obtain ⟨res, hp, _⟩ := peekRune_returns sf1 g0 g1
    exact ⟨_, hp⟩

/-! ## Construction -/

/-- C6 (construction): for every name and text the constructor returns a nil
error and a buffer with the given name, cursor 0, the code points of the text
as characters, and as newline offsets a strictly increasing list whose members
are exactly the indices `i` with `characters[i] == '\n'`. -/
theorem newStrSourceFile_spec (name code : String) :
    (newStrSourceFile name code).2 = error.nil ∧
      (newStrSourceFile name code).1.name = name ∧
      (newStrSourceFile name code).1.cursor = 0 ∧
      (newStrSourceFile name code).1.runes = code.data.map (fun c => (c.toNat : Int)) ∧
      (newStrSourceFile name code).1.newlineOffsets.Pairwise (fun a b => a < b) ∧
      ∀ i : Int, i ∈ (newStrSourceFile name code).1.newlineOffsets ↔
        (0 ≤ i ∧ i < (newStrSourceFile name code).1.runes.length ∧
          index? (newStrSourceFile name code).1.runes i = some 10) := by
  refine ⟨rfl, rfl, rfl, rfl, pairwise_scanNewlines _ 0, ?_⟩
  intro i
  show i ∈ scanNewlines (toRunes code) 0 [] ↔ _
  rw [mem_scanNewlines]
  show _ ↔ 0 ≤ i ∧ i < (toRunes code).length ∧ index? (toRunes code) i = some 10
  simp

/-! ## Offset to position -/

/-- The position of an offset within the bounds has a non-negative row and a
non-negative column. -/
theorem offsetToRowCol_nonneg (sf : strSourceFile) (o : Int) (h0 : 0 ≤ o)
    (h1 : o ≤ sf.runes.length) :
    0 ≤ (offsetToRowCol sf o).row ∧ 0 ≤ (offsetToRowCol sf o).col := by
  rcases offsetToRowCol_cases sf o h0 h1 with ⟨k, _, hk2, hk3⟩ | ⟨hall, hrc⟩
  · have hle := lineStart_le sf o h0 k (by omega) (fun j hj => hk2 j (Fin.lt_def.2 hj))
    rw [hk3]
    constructor
    · show (0 : Int) ≤ ((k : Nat) : Int)
      omega
    · show 0 ≤ o - lineStart sf ((k : Nat) : Int)
      omega
  · have hle := lineStart_le sf o h0 sf.newlineOffsets.length (le_refl _)
      (fun j _ => hall _ (List.mem_iff_get.2 ⟨j, rfl⟩))
    rw [hrc]
    constructor
    · show (0 : Int) ≤ (sf.newlineOffsets.length : Int)
      omega
    · show 0 ≤ o - lineStart sf (sf.newlineOffsets.length : Int)
      omega

/-- C7 (`offsetToRowCol` validity): for every buffer and every integer offset
`o`, the result is the invalid position `(-1,-1)` if and only if `o < 0` or
`o > len(characters)`; the offset `len(characters)` has a valid position; and
every result is the invalid position or has line `>= 0` and column `>= 0`. -/
theorem offsetToRowCol_invalid_iff (sf : strSourceFile) (o : Int) :
    (offsetToRowCol sf o = invalidRowCol ↔ (o < 0 ∨ o > sf.runes.length)) ∧
      offsetToRowCol sf sf.runes.length ≠ invalidRowCol ∧
      (offsetToRowCol sf o = invalidRowCol ∨
        (0 ≤ (offsetToRowCol sf o).row ∧ 0 ≤ (offsetToRowCol sf o).col)) := by
  have hvalid : ∀ x : Int, 0 ≤ x → x ≤ sf.runes.length → offsetToRowCol sf x ≠ invalidRowCol := by
    intro x hx0 hx1 heq
    have h := (offsetToRowCol_nonneg sf x hx0 hx1).1
    rw [heq] at h
    exact absurd h (by decide)
  refine ⟨⟨?_, ?_⟩, hvalid _ (by omega) (le_refl _), ?_⟩
  · intro heq
    by_contra hb
    exact hvalid o (by omega) (by omega) heq
  · intro hb
    simp only [offsetToRowCol, if_pos hb]
  · by_cases hb : o < 0 ∨ o > sf.runes.length
    · left
      simp only [offsetToRowCol, if_pos hb]
    · right
      exact offsetToRowCol_nonneg sf o (by omega) (by omega)

/-- C8 (`offsetToRowCol` algorithm): on the buffer created from a text and an
offset `o` with `0 <= o <= len(characters)`, the returned line is the smallest
index `i` with `o <= newline_offsets[i]`, or `len(newline_offsets)` if there
is no such index, and the returned column is `o - lineStart(line)`. -/
theorem offsetToRowCol_algorithm (name code : String) (o : Int) (h0 : 0 ≤ o)
    (h1 : o ≤ (mustSourceFile name code).runes.length) :
    (∃ i : Fin (mustSourceFile name code).newlineOffsets.length,
        o ≤ (mustSourceFile name code).newlineOffsets.get i ∧
        (∀ j : Fin (mustSourceFile name code).newlineOffsets.length,
          j < i → ¬ (o ≤ (mustSourceFile name code).newlineOffsets.get j)) ∧
        offsetToRowCol (mustSourceFile name code) o =
          ⟨(i : Nat), o - lineStart (mustSourceFile name code) (i : Nat)⟩) ∨
      ((∀ j : Fin (mustSourceFile name code).newlineOffsets.length,
          ¬ (o ≤ (mustSourceFile name code).newlineOffsets.get j)) ∧
        offsetToRowCol (mustSourceFile name code) o =
          ⟨(mustSourceFile name code).newlineOffsets.length,
            o - lineStart (mustSourceFile name code)
              (mustSourceFile name code).newlineOffsets.length⟩) := by
  rcases offsetToRowCol_cases (mustSourceFile name code) o h0 h1 with
    ⟨k, hk1, hk2, hk3⟩ | ⟨hall, hrc⟩
  · left
    exact ⟨k, hk1, fun j hj => not_le.2 (hk2 j hj), hk3⟩
  · right
    exact ⟨fun j => not_le.2 (hall _ (List.mem_iff_get.2 ⟨j, rfl⟩)), hrc⟩

/-- Witness of C8 on `"ab\n\ncd"` at offset 3, the offset of the second
newline (the code returns line 1, column 0 there). -/
theorem offsetToRowCol_algorithm_witness :
    ((0 : Int) ≤ 3 ∧ (3 : Int) ≤ (mustSourceFile "" "ab\n\ncd").runes.length) ∧
      ((∃ i : Fin (mustSourceFile "" "ab\n\ncd").newlineOffsets.length,
          3 ≤ (mustSourceFile "" "ab\n\ncd").newlineOffsets.get i ∧
          (∀ j : Fin (mustSourceFile "" "ab\n\ncd").newlineOffsets.length,
            j < i → ¬ (3 ≤ (mustSourceFile "" "ab\n\ncd").newlineOffsets.get j)) ∧
          offsetToRowCol (mustSourceFile "" "ab\n\ncd") 3 =
            ⟨(i : Nat), 3 - lineStart (mustSourceFile "" "ab\n\ncd") (i : Nat)⟩) ∨
        ((∀ j : Fin (mustSourceFile "" "ab\n\ncd").newlineOffsets.length,
            ¬ (3 ≤ (mustSourceFile "" "ab\n\ncd").newlineOffsets.get j)) ∧
          offsetToRowCol (mustSourceFile "" "ab\n\ncd") 3 =
            ⟨(mustSourceFile "" "ab\n\ncd").newlineOffsets.length,
              3 - lineStart (mustSourceFile "" "ab\n\ncd")
                (mustSourceFile "" "ab\n\ncd").newlineOffsets.length⟩)) :=
  ⟨⟨by decide, by decide⟩, offsetToRowCol_algorithm "" "ab\n\ncd" 3 (by decide) (by decide)⟩

/-! ## Position to offset, line lengths -/

/-- C9 (`rowColToOffset`): for every buffer and position, the result is the
invalid offset if `lineStart(line)` is invalid or if
`column > lineLength(line)`; otherwise it is `lineStart(line) + column`.  A
column equal to `lineLength(line)` is accepted. -/
theorem rowColToOffset_spec (sf : strSourceFile) (rc : rowCol) :
    (lineStart sf rc.row = invalidCursorOffset →
        rowColToOffset sf rc = invalidCursorOffset) ∧
      (rc.col > lineLength sf rc.row → rowColToOffset sf rc = invalidCursorOffset) ∧
      (lineStart sf rc.row ≠ invalidCursorOffset → rc.col ≤ lineLength sf rc.row →
        rowColToOffset sf rc = lineStart sf rc.row + rc.col) ∧
      (lineStart sf rc.row ≠ invalidCursorOffset →
        rowColToOffset sf ⟨rc.row, lineLength sf rc.row⟩ =
          lineStart sf rc.row + lineLength sf rc.row) := by
  refine ⟨?_, ?_, ?_, ?_⟩
  · intro h
    simp only [rowColToOffset, if_pos h]
  · intro h
    simp only [rowColToOffset, if_pos h]
    split <;> rfl
  · intro h hc
    simp only [rowColToOffset, if_neg h, if_neg (not_lt.2 hc)]
  · intro h
    simp only [rowColToOffset, if_neg h, if_neg (lt_irrefl _)]

/-- Instance of C9 on `"ab\n\n"`: line 0 has start 0 and length 2, and the
position (0, 2) maps to offset 2. -/
theorem rowColToOffset_spec_witness :
    lineStart (mustSourceFile "" "ab\n\n") 0 ≠ invalidCursorOffset ∧
      lineLength (mustSourceFile "" "ab\n\n") 0 = 2 ∧
      rowColToOffset (mustSourceFile "" "ab\n\n") ⟨0, 2⟩ = 2 :=
  ⟨by decide, by decide,
    (rowColToOffset_spec (mustSourceFile "" "ab\n\n") ⟨0, 2⟩).2.2.1 (by decide) (by decide)⟩

/-- On a buffer with non-negative, strictly increasing newline offsets below
the number of characters, every existing line has a non-negative length. -/
theorem lineLength_nonneg (sf : strSourceFile)
    (hnl : ∀ x ∈ sf.newlineOffsets, 0 ≤ x ∧ x < sf.runes.length)
    (hsorted : sf.newlineOffsets.Pairwise (fun a b => a < b))
    (k : Nat) (hk : k ≤ sf.newlineOffsets.length) : 0 ≤ lineLength sf (k : Nat) := by
  have hnl0 : ∀ x ∈ sf.newlineOffsets, 0 ≤ x := fun x hx => (hnl x hx).1
  rcases Nat.lt_or_ge k sf.newlineOffsets.length with hlt | hge
  · have hl := lineLength_inner sf hnl0 ⟨k, hlt⟩
    simp only at hl
    rw [hl]
    rcases lineStart_nat_cases sf k hk with ⟨_, h⟩ | ⟨j, hj, h⟩
    · have := hnl0 _ (List.mem_iff_get.2 ⟨⟨k, hlt⟩, rfl⟩)
      omega
    · have := List.pairwise_iff_get.1 hsorted j ⟨k, hlt⟩ (by simp [Fin.lt_def]; omega)
      omega
  · have hk2 : k = sf.newlineOffsets.length := by omega
    subst hk2
    rw [lineLength_last sf hnl0]
    rcases lineStart_nat_cases sf sf.newlineOffsets.length (le_refl _) with ⟨_, h⟩ | ⟨j, hj, h⟩
    · omega
    · have := (hnl _ (List.mem_iff_get.2 ⟨j, rfl⟩)).2
      omega

/-- C10 (`lineLength` formula): for every buffer and line number `l`,
`lineLength(l)` is `-1` if `lineStart(l)` is invalid; otherwise it is
`lineStart(l+1) - lineStart(l) - 1` if `lineStart(l+1)` is valid and
`len(characters) - lineStart(l)` if not.  On the buffer built from a text, for
every existing line the next line start is invalid exactly on the last line,
and the length is `>= 0`. -/
theorem lineLength_spec (sf : strSourceFile) (name code : String) (l : Int) :
    (lineStart sf l = invalidCursorOffset → lineLength sf l = -1) ∧
      (lineStart sf l ≠ invalidCursorOffset → lineStart sf (l + 1) ≠ invalidCursorOffset →
        lineLength sf l = lineStart sf (l + 1) - lineStart sf l - 1) ∧
      (lineStart sf l ≠ invalidCursorOffset → lineStart sf (l + 1) = invalidCursorOffset →
        lineLength sf l = sf.runes.length - lineStart sf l) ∧
      (0 ≤ l → l ≤ (mustSourceFile name code).newlineOffsets.length →
        (lineStart (mustSourceFile name code) (l + 1) = invalidCursorOffset ↔
          l = (mustSourceFile name code).newlineOffsets.length) ∧
        0 ≤ lineLength (mustSourceFile name code) l) := by
  refine ⟨?_, ?_, ?_, ?_⟩
  · intro h
    simp only [lineLength, if_pos h]
  · intro h h2
    simp only [lineLength, if_neg h, if_neg h2]
  · intro h h2
    simp only [lineLength, if_neg h, if_pos h2]
  · intro h0 h1
    obtain ⟨k, rfl⟩ := Int.eq_ofNat_of_zero_le h0
    have hk : k ≤ (mustSourceFile name code).newlineOffsets.length := by omega
    have hmem := mustSourceFile_mem name code
    constructor
    · constructor
      · intro hinv
        by_contra hne
        have hlt : k < (mustSourceFile name code).newlineOffsets.length := by omega
        have hs := lineStart_succ (mustSourceFile name code) k hlt
        have := (hmem _ (List.mem_iff_get.2 ⟨⟨k, hlt⟩, rfl⟩)).1
        simp only [invalidCursorOffset] at hinv
        omega
      · intro heq
        exact lineStart_invalid _ _ (by omega)
    · exact lineLength_nonneg (mustSourceFile name code) hmem
        (by rw [mustSourceFile_newlineOffsets]; exact pairwise_scanNewlines _ 0) k hk

/-- Instance of C10 on `"ab\n\n"`: line 0 has length 2 (a next line exists),
the last line 2 has length 0. -/
theorem lineLength_spec_witness :
    lineLength (mustSourceFile "" "ab\n\n") 0 = 2 ∧
      (0 : Int) ≤ lineLength (mustSourceFile "" "ab\n\n") 2 := by
  constructor
  · have h := (lineLength_spec (mustSourceFile "" "ab\n\n") "" "ab\n\n" 0).2.1
      (by decide) (by decide)
    rw [h]
    decide
  · exact ((lineLength_spec (mustSourceFile "" "ab\n\n") "" "ab\n\n" 2).2.2.2
      (by decide) (by decide)).2


/-! ## Line starts and line metrics of all lines -/

/-- C11, as stated, fails: on the buffer of the empty text (no newline, so
`len(newline_offsets) + 1 = 1`) line 1 neither is negative nor exceeds 1, yet
`lineStart(1)` is the invalid offset. -/
theorem lineStart_claim_counterexample :
    ¬ (lineStart (mustSourceFile "" "") 1 = invalidCursorOffset ↔
      ((1 : Int) < 0 ∨
        (1 : Int) > ((mustSourceFile "" "").newlineOffsets.length : Int) + 1)) := by
  decide

/-- C11, amended: on every buffer whose newline offsets are non-negative (as
are those of every constructed buffer), `lineStart(l)` is the invalid offset
exactly when `l` is negative or `l` exceeds `len(newline_offsets)`; for every
other `l` it is a real offset, `>= 0`. -/
theorem lineStart_invalid_iff (sf : strSourceFile) (hnl : ∀ x ∈ sf.newlineOffsets, 0 ≤ x)
    (l : Int) :
    (lineStart sf l = invalidCursorOffset ↔
        (l < 0 ∨ l > (sf.newlineOffsets.length : Int))) ∧
      (lineStart sf l = invalidCursorOffset ∨ 0 ≤ lineStart sf l) := by
  by_cases hb : l < 0 ∨ l > (sf.newlineOffsets.length : Int)
  · have hinv := lineStart_invalid sf l (by omega)
    exact ⟨⟨fun _ => hb, fun _ => hinv⟩, Or.inl hinv⟩
  · obtain ⟨k, rfl⟩ := Int.eq_ofNat_of_zero_le (by omega : 0 ≤ l)
    have hpos := lineStart_nonneg sf hnl k (by omega)
    refine ⟨⟨fun h => ?_, fun h => absurd h hb⟩, Or.inr hpos⟩
    simp only [invalidCursorOffset] at h
    omega

/-- Witness of the amended C11 on `"ab\n\n"` (newline offsets 2 and 3): line 2
exists and starts at 4, line 3 does not exist. -/
theorem lineStart_invalid_iff_witness :
    (∀ x ∈ (mustSourceFile "" "ab\n\n").newlineOffsets, (0 : Int) ≤ x) ∧
      lineStart (mustSourceFile "" "ab\n\n") 2 = 4 ∧
      (lineStart (mustSourceFile "" "ab\n\n") 3 = invalidCursorOffset ↔
        ((3 : Int) < 0 ∨ (3 : Int) > ((mustSourceFile "" "ab\n\n").newlineOffsets.length : Int))) :=
  ⟨by decide, by decide,
    (lineStart_invalid_iff (mustSourceFile "" "ab\n\n") (by decide) 3).1⟩


/-- The loop of `lineLengths` from loop variable `i`, with `n` lines left and
more than `n` checks allowed, appends the lengths of these `n` lines. -/
theorem lineLengthsLoop_eq (sf : strSourceFile) (n : Nat) :
    ∀ (fuel : Nat) (i : Int) (ret : List Int),
      ((sf.newlineOffsets.length : Int) + 1 - i).toNat = n →
      i ≤ (sf.newlineOffsets.length : Int) + 1 → n < fuel →
      lineLengthsLoop sf fuel i ret =
        some (ret ++ (List.range n).map (fun j => lineLength sf (i + (j : Nat)))) := by
  induction n with
  | zero =>
    intro fuel i ret hn hi hf
    obtain ⟨f, rfl⟩ : ∃ f, fuel = f + 1 := ⟨fuel - 1, by omega⟩
    have hc : ¬ (i ≤ (sf.newlineOffsets.length : Int)) := by omega
    simp [lineLengthsLoop, hc]
  | succ m ih =>
    intro fuel i ret hn hi hf
    obtain ⟨f, rfl⟩ : ∃ f, fuel = f + 1 := ⟨fuel - 1, by omega⟩
    have hc : i ≤ (sf.newlineOffsets.length : Int) := by omega
    simp only [lineLengthsLoop, if_pos hc]
    rw [ih f (i + 1) _ (by omega) (by omega) (by omega)]
    simp only [List.range_succ_eq_map, List.map_cons, List.map_map, List.append_assoc,
      List.singleton_append, Nat.cast_zero, add_zero]
    congr 3
    apply List.map_congr_left
    intro j _
    simp only [Function.comp, Nat.cast_succ]
    congr 1
    omega

/-- The loop of `lineStarts`, as `lineLengthsLoop_eq`. -/
theorem lineStartsLoop_eq (sf : strSourceFile) (n : Nat) :
    ∀ (fuel : Nat) (i : Int) (ret : List Int),
      ((sf.newlineOffsets.length : Int) + 1 - i).toNat = n →
      i ≤ (sf.newlineOffsets.length : Int) + 1 → n < fuel →
      lineStartsLoop sf fuel i ret =
        some (ret ++ (List.range n).map (fun j => lineStart sf (i + (j : Nat)))) := by
  induction n with
  | zero =>
    intro fuel i ret hn hi hf
    obtain ⟨f, rfl⟩ : ∃ f, fuel = f + 1 := ⟨fuel - 1, by omega⟩
    have hc : ¬ (i ≤ (sf.newlineOffsets.length : Int)) := by omega
    simp [lineStartsLoop, hc]
  | succ m ih =>
    intro fuel i ret hn hi hf
    obtain ⟨f, rfl⟩ : ∃ f, fuel = f + 1 := ⟨fuel - 1, by omega⟩
    have hc : i ≤ (sf.newlineOffsets.length : Int) := by omega
    simp only [lineStartsLoop, if_pos hc]
    rw [ih f (i + 1) _ (by omega) (by omega) (by omega)]
    simp only [List.range_succ_eq_map, List.map_cons, List.map_map, List.append_assoc,
      List.singleton_append, Nat.cast_zero, add_zero]
    congr 3
    apply List.map_congr_left
    intro j _
    simp only [Function.comp, Nat.cast_succ]
    congr 1
    omega

/-- The result of `lineLengths`: the length of every line `0 .. len(newline_offsets)`. -/
theorem lineLengths_eq (sf : strSourceFile) :
    lineLengths sf =
      some ((List.range (sf.newlineOffsets.length + 1)).map
        (fun j => lineLength sf ((j : Nat) : Int))) := by
  have h := lineLengthsLoop_eq sf (sf.newlineOffsets.length + 1)
    (sf.newlineOffsets.length + 2) 0 [] (by omega) (by omega) (by omega)
  simpa [lineLengths] using h

/-- The result of `lineStarts`: the start of every line `0 .. len(newline_offsets)`. -/
theorem lineStarts_eq (sf : strSourceFile) :
    lineStarts sf =
      some ((List.range (sf.newlineOffsets.length + 1)).map
        (fun j => lineStart sf ((j : Nat) : Int))) := by
  have h := lineStartsLoop_eq sf (sf.newlineOffsets.length + 1)
    (sf.newlineOffsets.length + 2) 0 [] (by omega) (by omega) (by omega)
  simpa [lineStarts] using h


/-- The newline index has one entry per newline rune. -/
theorem scanNewlines_length (rs : List Int) (i : Int) :
    (scanNewlines rs i []).length = rs.count 10 := by
  induction rs generalizing i with
  | nil => simp [scanNewlines]
  | cons r rest ih =>
    rw [scanNewlines_cons, List.length_append, ih (i + 1)]
    by_cases h : r = 10
    · subst h
      simp
      omega
    · have h2 : ¬ (10 = r) := fun e => h e.symm
      simp [h, List.count_cons, h2]

theorem mustSourceFile_sorted (name code : String) :
    (mustSourceFile name code).newlineOffsets.Pairwise (fun a b => a < b) := by
  rw [mustSourceFile_newlineOffsets]
  exact pairwise_scanNewlines _ 0

/-- In a strictly increasing list the entries are ordered as their indices. -/
theorem get_lt_get_of_sorted (xs : List Int) (hs : xs.Pairwise (fun a b => a < b))
    (i j : Fin xs.length) (h : (i : Nat) < (j : Nat)) : xs.get i < xs.get j :=
  List.pairwise_iff_get.1 hs i j (Fin.lt_def.2 h)

theorem get_le_get_of_sorted (xs : List Int) (hs : xs.Pairwise (fun a b => a < b))
    (i j : Fin xs.length) (h : (i : Nat) ≤ (j : Nat)) : xs.get i ≤ xs.get j := by
  rcases Nat.lt_or_ge i j with hlt | hge
  · exact le_of_lt (get_lt_get_of_sorted xs hs i j hlt)
  · have : i = j := Fin.ext (by omega)
    rw [this]

/-- Line starts of existing lines increase strictly with the line number. -/
theorem lineStart_lt_lineStart (sf : strSourceFile) (hnl : ∀ x ∈ sf.newlineOffsets, 0 ≤ x)
    (hs : sf.newlineOffsets.Pairwise (fun a b => a < b)) (a b : Nat) (hab : a < b)
    (hb : b ≤ sf.newlineOffsets.length) :
    lineStart sf (a : Nat) < lineStart sf (b : Nat) := by
  rcases lineStart_nat_cases sf b hb with ⟨hb0, _⟩ | ⟨j, hj, hlb⟩
  · omega
  · rcases lineStart_nat_cases sf a (by omega) with ⟨_, hla⟩ | ⟨i, hi, hla⟩
    · have := hnl _ (List.mem_iff_get.2 ⟨j, rfl⟩)
      omega
    · have := get_lt_get_of_sorted _ hs i j (by omega)
      omega

/-- C12 (line count invariant): for every text, `lineLengths()` of the buffer
built from it returns a list with exactly `newline_count + 1` entries (the
number of `'\n'` characters, which is `len(newline_offsets)`, plus one), whose
entry `i` is `lineLength(i)` for every `i` in `0..len(newline_offsets)`; for
the empty text the result is exactly `[0]`. -/
theorem lineLengths_spec (name code : String) :
    ∃ xs : List Int, lineLengths (mustSourceFile name code) = some xs ∧
      xs.length = (toRunes code).count 10 + 1 ∧
      xs.length = (mustSourceFile name code).newlineOffsets.length + 1 ∧
      (∀ i : Nat, i ≤ (mustSourceFile name code).newlineOffsets.length →
        xs.get? i = some (lineLength (mustSourceFile name code) (i : Nat))) ∧
      lineLengths (mustSourceFile name "") = some [0] := by
  refine ⟨_, lineLengths_eq _, ?_, ?_, ?_, ?_⟩
  · rw [List.length_map, List.length_range, mustSourceFile_newlineOffsets, scanNewlines_length]
  · rw [List.length_map, List.length_range]
  · intro i hi
    rw [List.get?_eq_getElem?, List.getElem?_map, List.getElem?_range (by omega)]
    rfl
  · rw [lineLengths_eq]
    rfl

/-- Instance of C12 on `"ab\n\n"`: three lines, of lengths 2, 0 and 0. -/
theorem lineLengths_spec_witness :
    lineLengths (mustSourceFile "" "ab\n\n") = some [2, 0, 0] := by
  obtain ⟨xs, hx, _, hlen, hget, _⟩ := lineLengths_spec "" "ab\n\n"
  rw [hx]
  have h0 := hget 0 (by decide)
  have h1 := hget 1 (by decide)
  have h2 := hget 2 (by decide)
  have hl : xs.length = 3 := by rw [hlen]; decide
  match xs, hl, h0, h1, h2 with
  | [a, b, c], _, h0, h1, h2 =>
    simp only [List.get?_cons_zero, List.get?_cons_succ, Option.some.injEq] at h0 h1 h2
    subst h0 h1 h2
    decide

/-- C13 (`lineStarts` content): for every text, `lineStarts()` of the buffer
built from it returns a list of length `len(newline_offsets) + 1` whose entry
0 is 0 and whose entry `i + 1` is `newline_offsets[i] + 1`; entry `i` is
`lineStart(i)` for each existing line, no entry is the invalid offset, and
the list is strictly increasing. -/
theorem lineStarts_spec (name code : String) :
    ∃ xs : List Int, lineStarts (mustSourceFile name code) = some xs ∧
      xs.length = (mustSourceFile name code).newlineOffsets.length + 1 ∧
      xs.get? 0 = some 0 ∧
      (∀ i : Fin (mustSourceFile name code).newlineOffsets.length,
        xs.get? ((i : Nat) + 1) = some ((mustSourceFile name code).newlineOffsets.get i + 1)) ∧
      (∀ i : Nat, i ≤ (mustSourceFile name code).newlineOffsets.length →
        xs.get? i = some (lineStart (mustSourceFile name code) (i : Nat))) ∧
      (∀ x ∈ xs, x ≠ invalidCursorOffset) ∧
      xs.Pairwise (fun a b => a < b) := by
  have hnl : ∀ x ∈ (mustSourceFile name code).newlineOffsets, 0 ≤ x :=
    fun x hx => (mustSourceFile_mem name code x hx).1
  have hget : ∀ i : Nat, i ≤ (mustSourceFile name code).newlineOffsets.length →
      ((List.range ((mustSourceFile name code).newlineOffsets.length + 1)).map
        (fun j => lineStart (mustSourceFile name code) ((j : Nat) : Int))).get? i =
        some (lineStart (mustSourceFile name code) (i : Nat)) := by
    intro i hi
    rw [List.get?_eq_getElem?, List.getElem?_map, List.getElem?_range (by omega)]
    rfl
  refine ⟨_, lineStarts_eq _, ?_, ?_, ?_, hget, ?_, ?_⟩
  · rw [List.length_map, List.length_range]
  · rw [hget 0 (by omega)]
    simp [lineStart_zero]
  · intro i
    rw [hget (i + 1) (by omega)]
    have := lineStart_succ (mustSourceFile name code) i i.2
    simp only [Fin.eta] at this
    simp only [Nat.cast_add, Nat.cast_one, this]
  · intro x hx
    obtain ⟨j, hj, rfl⟩ := List.mem_map.1 hx
    have hjl : j ≤ (mustSourceFile name code).newlineOffsets.length := by
      have := List.mem_range.1 hj
      omega
    have := lineStart_nonneg (mustSourceFile name code) hnl j hjl
    simp only [invalidCursorOffset]
    omega
  · rw [List.pairwise_map]
    refine List.Pairwise.imp_of_mem ?_ (List.pairwise_lt_range _)
    intro a b _ hb hab
    have hbl : b ≤ (mustSourceFile name code).newlineOffsets.length := by
      have := List.mem_range.1 hb
      omega
    exact lineStart_lt_lineStart _ hnl (mustSourceFile_sorted name code) a b hab hbl


/-! ## Rendering of a position -/

/-- A value within the 64-bit range is not changed by wrapping. -/
theorem wrapInt_eq (x : Int) (h0 : -9223372036854775808 ≤ x) (h1 : x < 9223372036854775808) :
    wrapInt x = x := by
  unfold wrapInt
  omega

/-- C14 (position rendering): for every position, `rowCol.String()` is the
decimal rendering of `line + 1`, followed by a single `':'`, followed by the
decimal rendering of `column + 1`, the two sums being Go `int` sums; for every
line and column from the least Go int up to, but not including, the greatest
one, these are the mathematical sums `line + 1` and `column + 1`.  The decimal
rendering is `toString` on the integers. -/
theorem rowCol_String_spec (rc : rowCol) :
    rc.String =
        toString (wrapInt (rc.row + 1)) ++ ":" ++ toString (wrapInt (rc.col + 1)) ∧
      (-9223372036854775808 ≤ rc.row → rc.row < 9223372036854775807 →
        -9223372036854775808 ≤ rc.col → rc.col < 9223372036854775807 →
        rc.String = toString (rc.row + 1) ++ ":" ++ toString (rc.col + 1)) := by
  refine ⟨rfl, ?_⟩
  intro hr0 hr1 hc0 hc1
  unfold rowCol.String formatD
  rw [wrapInt_eq (rc.row + 1) (by omega) (by omega),
    wrapInt_eq (rc.col + 1) (by omega) (by omega)]

/-- Witness of C14 at positions with several digits and with negative
components: (9, 41) renders as `10:42`, (0, 0) as `1:1`, (122, 9998) as
`123:9999`, the invalid position (-1, -1) as `0:0`, and (-3, -41) as
`-2:-40`. -/
theorem rowCol_String_spec_witness :
    rowCol.String ⟨9, 41⟩ = "10:42" ∧
      rowCol.String ⟨0, 0⟩ = "1:1" ∧
      rowCol.String ⟨122, 9998⟩ = "123:9999" ∧
      rowCol.String invalidRowCol = "0:0" ∧
      rowCol.String ⟨-3, -41⟩ = "-2:-40" := by
  refine ⟨?_, by decide, by decide, by decide, by decide⟩
  rw [(rowCol_String_spec ⟨9, 41⟩).2 (by decide) (by decide) (by decide) (by decide)]
  decide

/-! ## Positions outside the bounds -/

/-- C15, failing input: on the buffer of `"abc"` the position (0, -2), whose
column is negative, is not rejected: `rowColToOffset` returns `-2`, which is
neither the invalid offset `-1` nor an offset in `[0, 3]`. -/
theorem rowColToOffset_negative_column :
    rowColToOffset (mustSourceFile "" "abc") ⟨0, -2⟩ = -2 ∧
      (-2 : Int) ≠ invalidCursorOffset ∧
      ¬ ((0 : Int) ≤ rowColToOffset (mustSourceFile "" "abc") ⟨0, -2⟩) := by
  decide

/-- With a non-negative column, every result of `rowColToOffset` on a
constructed buffer is the invalid offset or an offset in
`[0, len(characters)]`. -/
theorem rowColToOffset_in_bounds (name code : String) (rc : rowCol) (hc : 0 ≤ rc.col) :
    rowColToOffset (mustSourceFile name code) rc = invalidCursorOffset ∨
      (0 ≤ rowColToOffset (mustSourceFile name code) rc ∧
        rowColToOffset (mustSourceFile name code) rc ≤
          (mustSourceFile name code).runes.length) := by
  have hmem := mustSourceFile_mem name code
  have hnl : ∀ x ∈ (mustSourceFile name code).newlineOffsets, 0 ≤ x :=
    fun x hx => (hmem x hx).1
  by_cases hb : rc.row < 0 ∨ rc.row > ((mustSourceFile name code).newlineOffsets.length : Int)
  · left
    have hinv := lineStart_invalid (mustSourceFile name code) rc.row (by omega)
    simp only [rowColToOffset, if_pos hinv]
  · obtain ⟨k, hk⟩ := Int.eq_ofNat_of_zero_le (by omega : 0 ≤ rc.row)
    have hkl : k ≤ (mustSourceFile name code).newlineOffsets.length := by omega
    have hs := lineStart_nonneg (mustSourceFile name code) hnl k hkl
    have ha : ¬ (lineStart (mustSourceFile name code) rc.row = invalidCursorOffset) := by
      rw [hk]
      simp only [invalidCursorOffset]
      omega
    by_cases hcol : rc.col > lineLength (mustSourceFile name code) rc.row
    · left
      simp only [rowColToOffset, if_neg ha, if_pos hcol]
    · right
      simp only [rowColToOffset, if_neg ha, if_neg hcol]
      rw [hk] at hcol ⊢
      rcases Nat.lt_or_ge k (mustSourceFile name code).newlineOffsets.length with hlt | hge
      · have hl := lineLength_inner (mustSourceFile name code) hnl ⟨k, hlt⟩
        simp only at hl
        have := (hmem _ (List.mem_iff_get.2 ⟨⟨k, hlt⟩, rfl⟩)).2
        omega
      · have hk2 : k = (mustSourceFile name code).newlineOffsets.length := by omega
        subst hk2
        have hl := lineLength_last (mustSourceFile name code) hnl
        omega


/-! ## Pushback -/

/-- A read that returns a character leaves a state whose unread restores the
state before the read. -/
theorem unreadRune_after_readRune (sf sf1 : strSourceFile) (c : Int)
    (h : readRune sf = some ((c, error.nil), sf1)) :
    unreadRune sf1 = (error.nil, sf) := by
  unfold readRune at h
  split at h
  · simp at h
  · cases hi : index? sf.runes sf.cursor with
    | none => simp [hi] at h
    | some r =>
      have hpos : ¬ (sf.cursor < 0) := by
        intro hneg
        simp [index?, hneg] at hi
      simp only [hi, Option.some.injEq, Prod.mk.injEq] at h
      obtain ⟨_, hsf⟩ := h
      subst hsf
      have hne : ¬ (sf.cursor + 1 = 0) := by omega
      simp [unreadRune, hne]

/-- Within the bounds, an unread that succeeds leaves a state whose read
succeeds and restores the state before the unread. -/
theorem readRune_after_unreadRune (sf sf1 : strSourceFile) (h0 : 0 ≤ sf.cursor)
    (h1 : sf.cursor ≤ sf.runes.length) (h : unreadRune sf = (error.nil, sf1)) :
    ∃ c, readRune sf1 = some ((c, error.nil), sf) := by
  unfold unreadRune at h
  split at h
  · simp at h
  · rename_i hne
    simp only [Prod.mk.injEq, true_and] at h
    subst h
    obtain ⟨r, _, _, hread⟩ :=
      readRune_inside { sf with cursor := sf.cursor - 1 } (by show 0 ≤ sf.cursor - 1; omega)
        (by show sf.cursor - 1 < sf.runes.length; omega)
    refine ⟨r, ?_⟩
    rw [hread]
    simp

/-- C16 (single-character pushback): whenever `readRune` succeeds returning
character `c`, an immediately following `unreadRune` succeeds and restores
exactly the state before the read, so the next `readRune` and `peekRune`
return `c` again; and in a state with `0 <= cursor <= len(characters)`,
whenever `unreadRune` succeeds, an immediately following `readRune` succeeds
and restores the state before the unread. -/
theorem pushback (sf : strSourceFile) :
    (∀ (c : Int) (sf1 : strSourceFile), readRune sf = some ((c, error.nil), sf1) →
        unreadRune sf1 = (error.nil, sf) ∧
        (readRune (unreadRune sf1).2).map (fun p => p.1) = some (c, error.nil) ∧
        (peekRune (unreadRune sf1).2).map (fun p => p.1) = some (c, error.nil)) ∧
      (0 ≤ sf.cursor → sf.cursor ≤ sf.runes.length →
        ∀ sf1 : strSourceFile, unreadRune sf = (error.nil, sf1) →
          ∃ c, readRune sf1 = some ((c, error.nil), sf) ∧
            cursorOffset sf = cursorOffset sf1 + 1) := by
  constructor
  · intro c sf1 h
    have hu := unreadRune_after_readRune sf sf1 c h
    refine ⟨hu, by simp [hu, h], ?_⟩
    rw [hu]
    show (peekRune sf).map (fun p => p.1) = some (c, error.nil)
    unfold readRune at h
    unfold peekRune
    split at h
    · simp at h
    · rename_i hne
      rw [if_neg hne]
      cases hi : index? sf.runes sf.cursor with
      | none => simp [hi] at h
      | some r =>
        simp only [hi, Option.some.injEq, Prod.mk.injEq] at h
        simp [h.1.1]
  · intro h0 h1 sf1 h
    obtain ⟨c, hc⟩ := readRune_after_unreadRune sf sf1 h0 h1 h
    refine ⟨c, hc, ?_⟩
    unfold unreadRune at h
    split at h
    · simp at h
    · simp only [Prod.mk.injEq, true_and] at h
      subst h
      show sf.cursor = sf.cursor - 1 + 1
      omega

/-- Instance of C16 on the buffer of `"a"`, with the scenario of the test
file: peek, peek, read, read, unread, unread. -/
theorem pushback_witness :
    unreadRune ⟨"", 1, [97], []⟩ = (error.nil, ⟨"", 0, [97], []⟩) ∧
      (∃ c, readRune ⟨"", 0, [97], []⟩ = some ((c, error.nil), ⟨"", 1, [97], []⟩)) ∧
      performOps (mustSourceFile "" "a")
          [op.peak, op.peak, op.read, op.read, op.unread, op.unread] =
        some [⟨0, 97, error.nil⟩, ⟨0, 97, error.nil⟩, ⟨1, 97, error.nil⟩,
          ⟨1, 0, error.EOF⟩, ⟨0, 0, error.nil⟩, ⟨0, 0, error.EOF⟩] := by
  refine ⟨?_, ?_, by decide⟩
  · exact ((pushback ⟨"", 0, [97], []⟩).1 97 ⟨"", 1, [97], []⟩ (by decide)).1
  · obtain ⟨c, hc, _⟩ :=
      (pushback ⟨"", 1, [97], []⟩).2 (by decide) (by decide) ⟨"", 0, [97], []⟩ (by decide)
    exact ⟨c, hc⟩


/-! ## Position to offset and back -/

/-- The line of an offset is fixed by the newlines around it: if all newlines
before index `k` are before the offset and newline `k`, when there is one, is
at or after it, the offset is on line `k`. -/
theorem offsetToRowCol_of_index (sf : strSourceFile) (o : Int) (h0 : 0 ≤ o)
    (h1 : o ≤ sf.runes.length) (k : Nat) (hk : k ≤ sf.newlineOffsets.length)
    (hbefore : ∀ j : Fin sf.newlineOffsets.length, (j : Nat) < k → sf.newlineOffsets.get j < o)
    (hat : ∀ j : Fin sf.newlineOffsets.length, (j : Nat) = k → o ≤ sf.newlineOffsets.get j) :
    offsetToRowCol sf o = ⟨(k : Nat), o - lineStart sf (k : Nat)⟩ := by
  rcases offsetToRowCol_cases sf o h0 h1 with ⟨k1, hk1, hk2, hk3⟩ | ⟨hall, hrc⟩
  · have hkk : (k1 : Nat) = k := by
      rcases Nat.lt_trichotomy (k1 : Nat) k with hlt | heq | hgt
      · have := hbefore k1 hlt
        omega
      · exact heq
      · have ha := hat ⟨k, by omega⟩ rfl
        have hb := hk2 ⟨k, by omega⟩ (Fin.lt_def.2 hgt)
        omega
    rw [hk3, hkk]
  · have hkk : k = sf.newlineOffsets.length := by
      by_contra hne
      have hlt : k < sf.newlineOffsets.length := by omega
      have ha := hat ⟨k, hlt⟩ rfl
      have hb := hall _ (List.mem_iff_get.2 ⟨⟨k, hlt⟩, rfl⟩)
      omega
    rw [hrc, hkk]

/-- On a buffer with non-negative, strictly increasing newline offsets below
the number of characters, the offset at column `c` of an existing line `k`
lies on line `k` at column `c`. -/
theorem offsetToRowCol_lineStart_add (sf : strSourceFile)
    (hnl : ∀ x ∈ sf.newlineOffsets, 0 ≤ x ∧ x < sf.runes.length)
    (hs : sf.newlineOffsets.Pairwise (fun a b => a < b)) (k : Nat)
    (hk : k ≤ sf.newlineOffsets.length) (c : Int) (hc0 : 0 ≤ c)
    (hc1 : c ≤ lineLength sf (k : Nat)) :
    offsetToRowCol sf (lineStart sf (k : Nat) + c) = ⟨(k : Nat), c⟩ := by
  have hnl0 : ∀ x ∈ sf.newlineOffsets, 0 ≤ x := fun x hx => (hnl x hx).1
  have hs0 := lineStart_nonneg sf hnl0 k hk
  have hupper : lineStart sf (k : Nat) + c ≤ sf.runes.length := by
    rcases Nat.lt_or_ge k sf.newlineOffsets.length with hlt | hge
    · have hl := lineLength_inner sf hnl0 ⟨k, hlt⟩
      simp only at hl
      have := (hnl _ (List.mem_iff_get.2 ⟨⟨k, hlt⟩, rfl⟩)).2
      omega
    · have hk2 : k = sf.newlineOffsets.length := by omega
      subst hk2
      have hl := lineLength_last sf hnl0
      omega
  have hbefore : ∀ j : Fin sf.newlineOffsets.length, (j : Nat) < k →
      sf.newlineOffsets.get j < lineStart sf (k : Nat) + c := by
    intro j hj
    rcases lineStart_nat_cases sf k hk with ⟨hk0, _⟩ | ⟨i, hi, hl⟩
    · omega
    · have := get_le_get_of_sorted _ hs j i (by omega)
      omega
  have hat : ∀ j : Fin sf.newlineOffsets.length, (j : Nat) = k →
      lineStart sf (k : Nat) + c ≤ sf.newlineOffsets.get j := by
    intro j hj
    have hl := lineLength_inner sf hnl0 j
    rw [hj] at hl
    omega
  rw [offsetToRowCol_of_index sf _ (by omega) hupper k hk hbefore hat]
  congr 1
  omega

/-- C17 (reverse round trip): on the buffer built from a text, for every
existing line `k` (`0 <= k <= len(newline_offsets)`) and every column `c` with
`0 <= c <= lineLength(k)`, `offsetToRowCol(lineStart(k) + c) == (k, c)`, that
is `offsetToRowCol(rowColToOffset((k, c))) == (k, c)`.  In particular the
offset of a newline maps to (its line, that line's length) and the offset
just after it to (next line, 0). -/
theorem reverse_roundtrip (name code : String) (k c : Int) (hk0 : 0 ≤ k)
    (hk1 : k ≤ (mustSourceFile name code).newlineOffsets.length) (hc0 : 0 ≤ c)
    (hc1 : c ≤ lineLength (mustSourceFile name code) k) :
    offsetToRowCol (mustSourceFile name code) (lineStart (mustSourceFile name code) k + c) =
        ⟨k, c⟩ ∧
      rowColToOffset (mustSourceFile name code) ⟨k, c⟩ =
        lineStart (mustSourceFile name code) k + c ∧
      offsetToRowCol (mustSourceFile name code)
        (rowColToOffset (mustSourceFile name code) ⟨k, c⟩) = ⟨k, c⟩ ∧
      (∀ i : Fin (mustSourceFile name code).newlineOffsets.length,
        offsetToRowCol (mustSourceFile name code)
            ((mustSourceFile name code).newlineOffsets.get i) =
          ⟨(i : Nat), lineLength (mustSourceFile name code) (i : Nat)⟩ ∧
        offsetToRowCol (mustSourceFile name code)
            ((mustSourceFile name code).newlineOffsets.get i + 1) =
          ⟨(i : Nat) + 1, 0⟩) := by
  have hmem := mustSourceFile_mem name code
  have hnl0 : ∀ x ∈ (mustSourceFile name code).newlineOffsets, 0 ≤ x :=
    fun x hx => (hmem x hx).1
  have hs := mustSourceFile_sorted name code
  obtain ⟨n, rfl⟩ := Int.eq_ofNat_of_zero_le hk0
  have hn : n ≤ (mustSourceFile name code).newlineOffsets.length := by omega
  have hfwd := offsetToRowCol_lineStart_add _ hmem hs n hn c hc0 hc1
  have hstart := lineStart_nonneg _ hnl0 n hn
  have hback : rowColToOffset (mustSourceFile name code) ⟨(n : Nat), c⟩ =
      lineStart (mustSourceFile name code) (n : Nat) + c := by
    have ha : ¬ (lineStart (mustSourceFile name code) (n : Nat) = invalidCursorOffset) := by
      simp only [invalidCursorOffset]
      omega
    simp only [rowColToOffset, if_neg ha, if_neg (not_lt.2 hc1)]
  refine ⟨hfwd, hback, by rw [hback]; exact hfwd, ?_⟩
  intro i
  have hl := lineLength_inner _ hnl0 i
  have hll := lineLength_nonneg _ hmem hs i (by omega)
  have hll1 := lineLength_nonneg _ hmem hs (i + 1) (by omega)
  have hsucc := lineStart_succ (mustSourceFile name code) i i.2
  simp only [Fin.eta] at hsucc
  constructor
  · have h := offsetToRowCol_lineStart_add _ hmem hs i (by omega) _ hll (le_refl _)
    rw [hl] at h
    rw [hl]
    simpa using h
  · have h := offsetToRowCol_lineStart_add _ hmem hs (i + 1) (by omega) 0 (le_refl _) hll1
    simp only [Nat.cast_add, Nat.cast_one, add_zero] at h
    rw [hsucc] at h
    exact h

/-- Witness of C17 on `"a\n"`: line 1 has start 2 and length 0, and
`offsetToRowCol(2)` is (1, 0). -/
theorem reverse_roundtrip_witness :
    ((0 : Int) ≤ 1 ∧ (1 : Int) ≤ (mustSourceFile "" "a\n").newlineOffsets.length ∧
        (0 : Int) ≤ 0 ∧ (0 : Int) ≤ lineLength (mustSourceFile "" "a\n") 1) ∧
      offsetToRowCol (mustSourceFile "" "a\n") (lineStart (mustSourceFile "" "a\n") 1 + 0) =
        ⟨1, 0⟩ :=
  ⟨⟨by decide, by decide, by decide, by decide⟩,
    (reverse_roundtrip "" "a\n" 1 0 (by decide) (by decide) (by decide) (by decide)).1⟩


/-! ## The last line -/

/-- C18, as stated, fails: on the buffer of `"a\n"` the offset 1 is the last
recorded newline (so it is "on or after" it) and is valid, yet
`offsetToRowCol(1)` is (0, 1), not line `len(newline_offsets) = 1` with column
`1 - lineStart(1)`. -/
theorem last_line_claim_counterexample :
    (mustSourceFile "" "a\n").newlineOffsets.getLast? = some 1 ∧
      (1 : Int) ≥ 1 ∧ (1 : Int) ≤ (mustSourceFile "" "a\n").runes.length ∧
      offsetToRowCol (mustSourceFile "" "a\n") 1 = ⟨0, 1⟩ ∧
      offsetToRowCol (mustSourceFile "" "a\n") 1 ≠
        ⟨((mustSourceFile "" "a\n").newlineOffsets.length : Int),
          1 - lineStart (mustSourceFile "" "a\n")
            ((mustSourceFile "" "a\n").newlineOffsets.length : Int)⟩ := by
  decide

/-- In a strictly increasing list no entry exceeds the last one. -/
theorem le_getLast_of_sorted (xs : List Int) (hs : xs.Pairwise (fun a b => a < b))
    (e : Int) (he : xs.getLast? = some e) : ∀ x ∈ xs, x ≤ e := by
  obtain ⟨ys, rfl⟩ := List.getLast?_eq_some_iff.1 he
  intro x hx
  rcases List.mem_append.1 hx with h | h
  · exact le_of_lt ((List.pairwise_append.1 hs).2.2 x h e (by simp))
  · simp at h
    omega

/-- C18, amended: on every buffer with strictly increasing newline offsets
(as the constructor builds them) and at least one newline, for every valid
offset `o` strictly after the last recorded newline
(`o > newline_offsets[last]`, `o <= len(characters)`), `offsetToRowCol(o)`
returns line `len(newline_offsets)` with column
`o - lineStart(len(newline_offsets))`. -/
theorem last_line_rule (sf : strSourceFile)
    (hs : sf.newlineOffsets.Pairwise (fun a b => a < b)) (e o : Int)
    (he : sf.newlineOffsets.getLast? = some e) (ho : e < o) (h1 : o ≤ sf.runes.length)
    (h0 : 0 ≤ o) :
    offsetToRowCol sf o =
      ⟨(sf.newlineOffsets.length : Int), o - lineStart sf (sf.newlineOffsets.length : Int)⟩ := by
  have hall : ∀ x ∈ sf.newlineOffsets, x < o := by
    intro x hx
    have := le_getLast_of_sorted _ hs e he x hx
    omega
  have hb : ¬ (o < 0 ∨ o > sf.runes.length) := by omega
  simp only [offsetToRowCol, if_neg hb,
    (offsetToRowColLoop_none sf o sf.newlineOffsets 0).2 hall]

/-- Witness of the amended C18 on `"a\n"`: offset 2, just after the last
newline, is on line 1 at column 0. -/
theorem last_line_rule_witness :
    ((mustSourceFile "" "a\n").newlineOffsets.Pairwise (fun a b => a < b) ∧
        (mustSourceFile "" "a\n").newlineOffsets.getLast? = some 1 ∧ (1 : Int) < 2 ∧
        (2 : Int) ≤ (mustSourceFile "" "a\n").runes.length ∧ (0 : Int) ≤ 2) ∧
      offsetToRowCol (mustSourceFile "" "a\n") 2 = ⟨1, 0⟩ := by
  have hs := mustSourceFile_sorted "" "a\n"
  refine ⟨⟨hs, by decide, by decide, by decide, by decide⟩, ?_⟩
  rw [last_line_rule (mustSourceFile "" "a\n") hs 1 2 (by decide) (by decide) (by decide)
    (by decide)]
  decide


/-! ## Meaning of line and column -/

theorem offsetToRowColLoop_row (sf : strSourceFile) (co : Int) (xs : List Int) (i : Int)
    (rc : rowCol) (h : offsetToRowColLoop sf co xs i = some rc) :
    rc.row = i + ((xs.takeWhile (fun e => decide (e < co))).length : Nat) := by
  induction xs generalizing i with
  | nil => simp [offsetToRowColLoop] at h
  | cons e rest ih =>
    simp only [offsetToRowColLoop] at h
    split at h
    · rename_i hgt
      have hlt : e < co := by omega
      rw [ih (i + 1) h]
      simp only [List.takeWhile_cons, hlt, decide_True, if_true, List.length_cons,
        Nat.cast_add, Nat.cast_one]
      omega
    · rename_i hgt
      have hlt : ¬ (e < co) := by omega
      simp only [Option.some.injEq] at h
      subst h
      simp [List.takeWhile_cons, hlt]

/-- The line of an offset within the bounds is the number of leading newline
offsets before it. -/
theorem offsetToRowCol_row (sf : strSourceFile) (o : Int) (h0 : 0 ≤ o)
    (h1 : o ≤ sf.runes.length) :
    (offsetToRowCol sf o).row =
      ((sf.newlineOffsets.takeWhile (fun e => decide (e < o))).length : Nat) := by
  have hb : ¬ (o < 0 ∨ o > sf.runes.length) := by omega
  simp only [offsetToRowCol, if_neg hb]
  cases hl : offsetToRowColLoop sf o sf.newlineOffsets 0 with
  | none =>
    have hall := (offsetToRowColLoop_none sf o _ 0).1 hl
    have : sf.newlineOffsets.takeWhile (fun e => decide (e < o)) = sf.newlineOffsets := by
      rw [List.takeWhile_eq_self_iff]
      intro x hx
      simpa using hall x hx
    rw [this]
  | some rc =>
    have := offsetToRowColLoop_row sf o _ 0 rc hl
    simpa using this

/-- On a strictly increasing list, the leading entries below a bound are all
the entries below it. -/
theorem takeWhile_eq_filter_of_sorted (xs : List Int) (hs : xs.Pairwise (fun a b => a < b))
    (o : Int) :
    xs.takeWhile (fun e => decide (e < o)) = xs.filter (fun e => decide (e < o)) := by
  induction xs with
  | nil => rfl
  | cons a t ih =>
    rw [List.pairwise_cons] at hs
    by_cases ha : a < o
    · simp only [List.takeWhile_cons, List.filter_cons, ha, decide_True, if_true]
      rw [ih hs.2]
    · simp only [List.takeWhile_cons, List.filter_cons, ha, decide_False]
      symm
      rw [if_neg (by simp), if_neg (by simp), List.filter_eq_nil_iff]
      intro x hx
      have := hs.1 x hx
      simp only [decide_eq_true_eq]
      omega

/-- The newline offsets below `i + n` are as many as the newlines among the
first `n` runes. -/
theorem scanNewlines_filter_lt (rs : List Int) (i : Int) (n : Nat) :
    ((scanNewlines rs i []).filter (fun e => decide (e < i + (n : Nat)))).length =
      (rs.take n).count 10 := by
  induction rs generalizing i n with
  | nil => simp [scanNewlines]
  | cons r rest ih =>
    rw [scanNewlines_cons, List.filter_append, List.length_append]
    cases n with
    | zero =>
      have h1 : (List.filter (fun e => decide (e < i + ((0 : Nat) : Int)))
          (scanNewlines rest (i + 1) [])) = [] := by
        rw [List.filter_eq_nil_iff]
        intro x hx
        have := (mem_scanNewlines rest (i + 1) x).1 hx
        simp only [Nat.cast_zero, add_zero, decide_eq_true_eq]
        omega
      rw [h1]
      by_cases h : r = 10 <;> simp [h]
    | succ m =>
      have hb : i + ((m + 1 : Nat) : Int) = (i + 1) + (m : Nat) := by
        push_cast
        omega
      rw [hb, ih (i + 1) m]
      by_cases h : r = 10
      · subst h
        have hi : i < i + 1 + (m : Int) := by omega
        simp [List.filter_cons, hi]
        omega
      · have h2 : ¬ (10 = r) := fun e => h e.symm
        simp [h, List.count_cons, h2]


theorem index?_bounds (xs : List Int) (i r : Int) (h : index? xs i = some r) :
    0 ≤ i ∧ i < xs.length := by
  unfold index? at h
  split at h
  · simp at h
  · have := List.get?_eq_some.1 h
    obtain ⟨hlt, _⟩ := this
    omega

/-- On a constructed buffer the newline offsets hold newlines. -/
theorem mustSourceFile_get_newline (name code : String)
    (j : Fin (mustSourceFile name code).newlineOffsets.length) :
    index? (mustSourceFile name code).runes ((mustSourceFile name code).newlineOffsets.get j) =
      some 10 := by
  have hmem : (mustSourceFile name code).newlineOffsets.get j ∈
      scanNewlines (toRunes code) 0 [] := List.mem_iff_get.2 ⟨j, rfl⟩
  have := ((mem_scanNewlines _ 0 _).1 hmem).2.2
  simpa using this

/-- On a constructed buffer a newline at or after the start of an existing
line `k` is recorded at an index `>= k` of the newline offsets. -/
theorem newline_after_lineStart (name code : String) (k : Nat)
    (hk : k ≤ (mustSourceFile name code).newlineOffsets.length) (x : Int)
    (hx : lineStart (mustSourceFile name code) (k : Nat) ≤ x)
    (h10 : index? (mustSourceFile name code).runes x = some 10) :
    ∃ m : Fin (mustSourceFile name code).newlineOffsets.length,
      k ≤ (m : Nat) ∧ (mustSourceFile name code).newlineOffsets.get m = x := by
  have hnl0 : ∀ y ∈ (mustSourceFile name code).newlineOffsets, 0 ≤ y :=
    fun y hy => (mustSourceFile_mem name code y hy).1
  have hb := index?_bounds _ _ _ h10
  have hmem : x ∈ (mustSourceFile name code).newlineOffsets := by
    rw [mustSourceFile_newlineOffsets, mem_scanNewlines]
    rw [mustSourceFile_runes] at hb h10
    refine ⟨hb.1, by omega, by simpa using h10⟩
  obtain ⟨m, hm⟩ := List.mem_iff_get.1 hmem
  refine ⟨m, ?_, hm⟩
  by_contra hlt
  rcases lineStart_nat_cases _ k hk with ⟨hk0, _⟩ | ⟨j, hj, hl⟩
  · omega
  · have := get_le_get_of_sorted _ (mustSourceFile_sorted name code) m j (by omega)
    omega

/-- The line of a valid offset on a buffer with strictly increasing newline
offsets: the newlines before index `K` are before the offset, the others at
or after it. -/
theorem offsetToRowCol_line (sf : strSourceFile)
    (hs : sf.newlineOffsets.Pairwise (fun a b => a < b)) (o : Int) (h0 : 0 ≤ o)
    (h1 : o ≤ sf.runes.length) :
    ∃ K : Nat, K ≤ sf.newlineOffsets.length ∧
      offsetToRowCol sf o = ⟨(K : Nat), o - lineStart sf (K : Nat)⟩ ∧
      (∀ j : Fin sf.newlineOffsets.length, (j : Nat) < K → sf.newlineOffsets.get j < o) ∧
      (∀ m : Fin sf.newlineOffsets.length, K ≤ (m : Nat) → o ≤ sf.newlineOffsets.get m) := by
  rcases offsetToRowCol_cases sf o h0 h1 with ⟨k, hk1, hk2, hk3⟩ | ⟨hall, hrc⟩
  · refine ⟨k, by omega, hk3, fun j hj => hk2 j (Fin.lt_def.2 hj), fun m hm => ?_⟩
    have := get_le_get_of_sorted _ hs k m hm
    omega
  · refine ⟨sf.newlineOffsets.length, le_refl _, hrc,
      fun j _ => hall _ (List.mem_iff_get.2 ⟨j, rfl⟩), fun m hm => ?_⟩
    have := m.2
    omega

/-- C19 (line number meaning): for every text and every offset `o` with
`0 <= o <= len(characters)`, the line returned by `offsetToRowCol(o)` is the
number of `'\n'` among `characters[0..o)`, and the column is `o` minus the
index just after the last `'\n'` strictly before `o` (or `o` itself when
there is none): with `s = o - column`, `0 <= s <= o`, no character at
`s..o-1` is `'\n'`, and `s` is 0 or `characters[s-1]` is `'\n'`. -/
theorem line_meaning (name code : String) (o : Int) (h0 : 0 ≤ o)
    (h1 : o ≤ (mustSourceFile name code).runes.length) :
    (offsetToRowCol (mustSourceFile name code) o).row =
        ((((toRunes code).take o.toNat).count 10 : Nat) : Int) ∧
      0 ≤ (offsetToRowCol (mustSourceFile name code) o).col ∧
      (offsetToRowCol (mustSourceFile name code) o).col ≤ o ∧
      (∀ x : Int, o - (offsetToRowCol (mustSourceFile name code) o).col ≤ x → x < o →
        index? (mustSourceFile name code).runes x ≠ some 10) ∧
      (o - (offsetToRowCol (mustSourceFile name code) o).col = 0 ∨
        index? (mustSourceFile name code).runes
          (o - (offsetToRowCol (mustSourceFile name code) o).col - 1) = some 10) := by
  have hs := mustSourceFile_sorted name code
  have hnl0 : ∀ y ∈ (mustSourceFile name code).newlineOffsets, 0 ≤ y :=
    fun y hy => (mustSourceFile_mem name code y hy).1
  constructor
  · rw [offsetToRowCol_row _ o h0 h1, takeWhile_eq_filter_of_sorted _ hs,
      mustSourceFile_newlineOffsets]
    have key := scanNewlines_filter_lt (toRunes code) 0 o.toNat
    have ho : (0 : Int) + ((o.toNat : Nat) : Int) = o := by omega
    rw [ho] at key
    rw [key]
  · obtain ⟨K, hK, hrc, hbefore, hafter⟩ := offsetToRowCol_line _ hs o h0 h1
    have hle := lineStart_le _ o h0 K hK hbefore
    have hge := lineStart_nonneg _ hnl0 K hK
    rw [hrc]
    simp only
    refine ⟨by omega, by omega, ?_, ?_⟩
    · intro x hx1 hx2 h10
      obtain ⟨m, hm1, hm2⟩ := newline_after_lineStart name code K hK x (by omega) h10
      have := hafter m hm1
      omega
    · rcases lineStart_nat_cases _ K hK with ⟨_, hl⟩ | ⟨j, _, hl⟩
      · left
        omega
      · right
        have h10 := mustSourceFile_get_newline name code j
        have he : o - (o - lineStart (mustSourceFile name code) (K : Nat)) - 1 =
            (mustSourceFile name code).newlineOffsets.get j := by omega
        rw [he]
        exact h10

/-- Witness of C19 on `"ab\n\ncd"` at offset 5: two newlines come before it,
and the last of them is at offset 3, so the position is (2, 1). -/
theorem line_meaning_witness :
    ((0 : Int) ≤ 5 ∧ (5 : Int) ≤ (mustSourceFile "" "ab\n\ncd").runes.length) ∧
      (offsetToRowCol (mustSourceFile "" "ab\n\ncd") 5).row =
        ((((toRunes "ab\n\ncd").take (5 : Int).toNat).count 10 : Nat) : Int) ∧
      offsetToRowCol (mustSourceFile "" "ab\n\ncd") 5 = ⟨2, 1⟩ :=
  ⟨⟨by decide, by decide⟩, (line_meaning "" "ab\n\ncd" 5 (by decide) (by decide)).1,
    by decide⟩


/-! ## Lines as maximal newline-free runs -/

/-- The lengths of the first `m` lines add up to the start of line `m` minus
the `m` newlines that end them. -/
theorem sum_lineLength_range (sf : strSourceFile) (hnl : ∀ x ∈ sf.newlineOffsets, 0 ≤ x)
    (m : Nat) (hm : m ≤ sf.newlineOffsets.length) :
    ((List.range m).map (fun j => lineLength sf ((j : Nat) : Int))).sum =
      lineStart sf (m : Nat) - (m : Nat) := by
  induction m with
  | zero => simp [lineStart_zero]
  | succ n ih =>
    have hl := lineLength_inner sf hnl ⟨n, by omega⟩
    have hsucc := lineStart_succ sf n (by omega)
    simp only at hl
    rw [List.range_succ, List.map_append, List.sum_append, ih (by omega)]
    simp only [List.map_cons, List.map_nil, List.sum_cons, List.sum_nil, add_zero,
      Nat.cast_add, Nat.cast_one]
    omega

/-- The lengths of all lines and the newlines between them add up to the
number of characters. -/
theorem sum_lineLength_all (sf : strSourceFile) (hnl : ∀ x ∈ sf.newlineOffsets, 0 ≤ x) :
    ((List.range (sf.newlineOffsets.length + 1)).map
        (fun j => lineLength sf ((j : Nat) : Int))).sum + sf.newlineOffsets.length =
      sf.runes.length := by
  have hp := sum_lineLength_range sf hnl sf.newlineOffsets.length (le_refl _)
  have hl := lineLength_last sf hnl
  rw [List.range_succ, List.map_append, List.sum_append, hp]
  simp only [List.map_cons, List.map_nil, List.sum_cons, List.sum_nil, add_zero]
  omega

/-- C20 (lines are maximal newline-free runs): on the buffer built from a
text, for every existing line `k` (`0 <= k <= len(newline_offsets)`), with
`s = lineStart(k)` and `n = lineLength(k)`: no character at offsets
`s..s+n-1` is `'\n'`, and offset `s+n` is `len(characters)` or holds a `'\n'`;
and the sum of `lineLengths()` plus the number of newlines equals
`len(characters)`. -/
theorem lines_maximal (name code : String) (k : Int) (hk0 : 0 ≤ k)
    (hk1 : k ≤ (mustSourceFile name code).newlineOffsets.length) :
    (∀ x : Int, lineStart (mustSourceFile name code) k ≤ x →
        x < lineStart (mustSourceFile name code) k + lineLength (mustSourceFile name code) k →
        index? (mustSourceFile name code).runes x ≠ some 10) ∧
      (lineStart (mustSourceFile name code) k + lineLength (mustSourceFile name code) k =
          (mustSourceFile name code).runes.length ∨
        index? (mustSourceFile name code).runes
          (lineStart (mustSourceFile name code) k + lineLength (mustSourceFile name code) k) =
            some 10) ∧
      (∃ xs : List Int, lineLengths (mustSourceFile name code) = some xs ∧
        xs.sum + (mustSourceFile name code).newlineOffsets.length =
          (mustSourceFile name code).runes.length ∧
        xs.sum + (((toRunes code).count 10 : Nat) : Int) = (toRunes code).length) := by
  have hnl0 : ∀ y ∈ (mustSourceFile name code).newlineOffsets, 0 ≤ y :=
    fun y hy => (mustSourceFile_mem name code y hy).1
  have hs := mustSourceFile_sorted name code
  obtain ⟨n, rfl⟩ := Int.eq_ofNat_of_zero_le hk0
  have hn : n ≤ (mustSourceFile name code).newlineOffsets.length := by omega
  refine ⟨?_, ?_, ?_⟩
  · intro x hx1 hx2 h10
    obtain ⟨m, hm1, hm2⟩ := newline_after_lineStart name code n hn x hx1 h10
    have hlt : n < (mustSourceFile name code).newlineOffsets.length := by
      have := m.2
      omega
    have hl := lineLength_inner _ hnl0 ⟨n, hlt⟩
    simp only at hl
    have := get_le_get_of_sorted _ hs ⟨n, hlt⟩ m hm1
    omega
  · rcases Nat.lt_or_ge n (mustSourceFile name code).newlineOffsets.length with hlt | hge
    · right
      have hl := lineLength_inner _ hnl0 ⟨n, hlt⟩
      simp only at hl
      have h10 := mustSourceFile_get_newline name code ⟨n, hlt⟩
      have he : lineStart (mustSourceFile name code) (n : Nat) +
          lineLength (mustSourceFile name code) (n : Nat) =
          (mustSourceFile name code).newlineOffsets.get ⟨n, hlt⟩ := by omega
      rw [he]
      exact h10
    · left
      have hn2 : n = (mustSourceFile name code).newlineOffsets.length := by omega
      have hl := lineLength_last _ hnl0
      rw [← hn2] at hl
      omega
  · have hsum := sum_lineLength_all _ hnl0
    refine ⟨_, lineLengths_eq _, hsum, ?_⟩
    have hc : (mustSourceFile name code).newlineOffsets.length = (toRunes code).count 10 := by
      rw [mustSourceFile_newlineOffsets, scanNewlines_length]
    rw [← hc]
    exact hsum

/-- Witness of C20 on `"ab\n\ncd"`, line 0: it starts at 0 with length 2,
offsets 0 and 1 hold no newline and offset 2 holds one; the line lengths
2, 0, 2 and the two newlines add up to the six characters. -/
theorem lines_maximal_witness :
    ((0 : Int) ≤ 0 ∧ (0 : Int) ≤ (mustSourceFile "" "ab\n\ncd").newlineOffsets.length) ∧
      lineStart (mustSourceFile "" "ab\n\ncd") 0 + lineLength (mustSourceFile "" "ab\n\ncd") 0 = 2 ∧
      index? (mustSourceFile "" "ab\n\ncd").runes 1 ≠ some 10 ∧
      lineLengths (mustSourceFile "" "ab\n\ncd") = some [2, 0, 2] ∧
      (toRunes "ab\n\ncd").length = 6 :=
  ⟨⟨by decide, by decide⟩, by decide,
    (lines_maximal "" "ab\n\ncd" 0 (by decide) (by decide)).1 1 (by decide) (by decide),
    by decide, by decide⟩

end FormsGo1
